import Mathlib

/-!
Shallow embedding of the balance/settlement engine of the expense-splitter
repository (web app `app1.py`, desktop app `main.py`), with theorems checking
the specification's claims about it.

Monetary amounts are modelled as exact rationals (`ℚ`); Python's `round(x, 2)`
(round-half-to-even at two decimal places) is modelled by `round2`.
Participants are identified by their index in the input lists; a transfer is a
triple `(debtor index, creditor index, amount)`, matching the
`names[d_idx] pays amount to names[c_idx]` lines both apps emit.
-/

namespace Spliter

open List

/-- Rounding of a rational to the nearest integer with halves to even: the
behaviour of Python's builtin `round` (banker's rounding), over exact
rationals. -/
def bround (y : ℚ) : ℤ :=
  if y - ⌊y⌋ < 1/2 then ⌊y⌋
  else if 1/2 < y - ⌊y⌋ then ⌊y⌋ + 1
  else if ⌊y⌋ % 2 = 0 then ⌊y⌋ else ⌊y⌋ + 1

/-- Models Python's `round(x, 2)`: round to two decimal places. -/
def round2 (x : ℚ) : ℚ := (bround (100 * x) : ℚ) / 100

lemma abs_bround_sub_le (y : ℚ) : |(bround y : ℚ) - y| ≤ 1/2 := by
  have h1 : (⌊y⌋ : ℚ) ≤ y := Int.floor_le y
  have h2 : y < ⌊y⌋ + 1 := Int.lt_floor_add_one y
  rw [bround]
  by_cases hlt : y - ⌊y⌋ < 1/2
  · rw [if_pos hlt, abs_le]
    constructor <;> linarith
  · rw [if_neg hlt]
    by_cases hgt : 1/2 < y - ⌊y⌋
    · rw [if_pos hgt, abs_le]
      constructor <;> push_cast <;> linarith
    · rw [if_neg hgt]
      have heq : y - ⌊y⌋ = 1/2 := le_antisymm (not_lt.mp hgt) (not_lt.mp hlt)
      by_cases hpar : ⌊y⌋ % 2 = 0 <;>
        simp only [hpar, if_pos, if_neg, if_true, if_false] <;>
        rw [abs_le] <;> constructor <;> push_cast <;> linarith

lemma abs_round2_sub_le (x : ℚ) : |round2 x - x| ≤ 1/200 := by
  have h := abs_bround_sub_le (100 * x)
  rw [round2]
  have : (bround (100 * x) : ℚ) / 100 - x = ((bround (100 * x) : ℚ) - 100 * x) / 100 := by
    ring
  rw [this, abs_div]
  rw [show |(100 : ℚ)| = 100 by norm_num]
  linarith

/-- Total rounding drift over a list: rounding every entry moves the sum by at
most `length / 200`. -/
lemma abs_sum_map_round2_sub (l : List ℚ) :
    |(l.map round2).sum - l.sum| ≤ (l.length : ℚ) / 200 := by
  induction l with
  | nil => simp
  | cons x xs ih =>
    have hx := abs_round2_sub_le x
    have tri : |(round2 x - x) + ((xs.map round2).sum - xs.sum)| ≤
        |round2 x - x| + |(xs.map round2).sum - xs.sum| := abs_add _ _
    have : ((x :: xs).map round2).sum - (x :: xs).sum =
        (round2 x - x) + ((xs.map round2).sum - xs.sum) := by
      simp [List.sum_cons]
      ring
    rw [this]
    have hlen : ((x :: xs).length : ℚ) / 200 = 1/200 + (xs.length : ℚ) / 200 := by
      push_cast [List.length_cons]
      ring
    rw [hlen]
    linarith

/-! ## Stable descending sort

`app1.py` builds the creditor and debtor lists with
`sorted([...], key=lambda x: x[1], reverse=True)`: Python's sort is stable, so
the result is descending in the amount component and, among equal amounts,
keeps the original (index) order.  `sortDesc` is an insertion sort with exactly
that input/output behaviour; the characterisation theorems below (permutation,
`keyRel`-sortedness on distinct-index inputs, and uniqueness) pin it down. -/

/-- Inserts `x` in front of the first element whose amount is `≤ x`'s amount:
elements with strictly larger amount stay in front, elements with equal amount
that were inserted earlier (coming from later input positions in the
right-fold below) end up after `x`. -/
def insertDesc (x : ℕ × ℚ) : List (ℕ × ℚ) → List (ℕ × ℚ)
  | [] => [x]
  | y :: ys => if x.2 < y.2 then y :: insertDesc x ys else x :: y :: ys

/-- Stable sort, descending in the second (amount) component: models
`sorted(entries, key=lambda x: x[1], reverse=True)`. -/
def sortDesc : List (ℕ × ℚ) → List (ℕ × ℚ)
  | [] => []
  | x :: xs => insertDesc x (sortDesc xs)

/-- The order realised by a stable descending sort of entries with pairwise
distinct indices: strictly larger amounts first, ties broken by smaller
original index first. -/
def keyRel (a b : ℕ × ℚ) : Prop := b.2 < a.2 ∨ (a.2 = b.2 ∧ a.1 < b.1)

lemma insertDesc_perm (x : ℕ × ℚ) (l : List (ℕ × ℚ)) : insertDesc x l ~ x :: l := by
  induction l with
  | nil => rfl
  | cons y ys ih =>
    rw [insertDesc]
    by_cases h : x.2 < y.2
    · rw [if_pos h]
      exact (List.Perm.cons y ih).trans (List.Perm.swap x y ys)
    · rw [if_neg h]

lemma sortDesc_perm (l : List (ℕ × ℚ)) : sortDesc l ~ l := by
  induction l with
  | nil => rfl
  | cons x xs ih =>
    rw [sortDesc]
    exact (insertDesc_perm x (sortDesc xs)).trans (List.Perm.cons x ih)

lemma mem_insertDesc {z x : ℕ × ℚ} {l : List (ℕ × ℚ)} :
    z ∈ insertDesc x l ↔ z = x ∨ z ∈ l := by
  rw [(insertDesc_perm x l).mem_iff, List.mem_cons]

lemma pairwise_insertDesc {x : ℕ × ℚ} {l : List (ℕ × ℚ)}
    (hl : List.Pairwise keyRel l) (hidx : ∀ y ∈ l, x.1 < y.1) :
    List.Pairwise keyRel (insertDesc x l) := by
  induction l with
  | nil => simp [insertDesc, List.pairwise_singleton]
  | cons y ys ih =>
    rw [insertDesc]
    by_cases h : x.2 < y.2
    · rw [if_pos h]
      refine List.Pairwise.cons ?_ (ih hl.of_cons (fun z hz => hidx z (List.mem_cons_of_mem y hz)))
      intro z hz
      rcases mem_insertDesc.mp hz with rfl | hz'
      · exact Or.inl h
      · exact List.rel_of_pairwise_cons hl hz'
    · rw [if_neg h]
      have hyx : y.2 ≤ x.2 := not_lt.mp h
      refine List.Pairwise.cons ?_ hl
      intro z hz
      have hz2 : z.2 ≤ x.2 := by
        rcases List.mem_cons.mp hz with rfl | hz'
        · exact hyx
        · rcases List.rel_of_pairwise_cons hl hz' with h' | ⟨h', _⟩
          · exact le_trans (le_of_lt h') hyx
          · exact le_trans (le_of_eq h'.symm) hyx
      rcases lt_or_eq_of_le hz2 with h' | h'
      · exact Or.inl h'
      · exact Or.inr ⟨h'.symm, hidx z hz⟩

/-- On a list of entries with strictly increasing indices (as produced by
`enum`-then-`filter`), the stable descending sort is `keyRel`-sorted: amounts
descend, and equal amounts keep ascending index order. -/
lemma pairwise_sortDesc {l : List (ℕ × ℚ)}
    (h : List.Pairwise (fun a b : ℕ × ℚ => a.1 < b.1) l) :
    List.Pairwise keyRel (sortDesc l) := by
  induction l with
  | nil => exact List.Pairwise.nil
  | cons x xs ih =>
    rw [sortDesc]
    refine pairwise_insertDesc (ih h.of_cons) ?_
    intro y hy
    exact List.rel_of_pairwise_cons h ((sortDesc_perm xs).mem_iff.mp hy)

/-- `keyRel` admits at most one sorted arrangement of any multiset of entries:
the output order of the stable descending sort is uniquely determined. -/
lemma eq_of_perm_of_pairwise_keyRel {l₁ l₂ : List (ℕ × ℚ)} (hp : l₁ ~ l₂)
    (h₁ : List.Pairwise keyRel l₁) (h₂ : List.Pairwise keyRel l₂) : l₁ = l₂ := by
  haveI : IsAntisymm (ℕ × ℚ) keyRel := by
    constructor
    intro a b hab hba
    exfalso
    rcases hab with h | ⟨he, hi⟩ <;> rcases hba with h' | ⟨he', hi'⟩
    · exact absurd (lt_trans h h') (lt_irrefl _)
    · exact absurd h (by rw [he']; exact lt_irrefl _)
    · exact absurd h' (by rw [he]; exact lt_irrefl _)
    · exact absurd (lt_trans hi hi') (lt_irrefl _)
  exact List.eq_of_perm_of_sorted hp h₁ h₂

/-! ## Core settlement logic (`app1.py`)

`settle(balances, names)` partitions the indices into creditors
(`bal > 0`, kept as `[i, bal]`) and debtors (`bal < 0`, kept as `[i, -bal]`),
sorts both descending by amount, then walks both lists with two cursors,
emitting `names[d_idx] pays pay_amt to names[c_idx]` lines.  A cursor advances
when its remainder drops below `0.01`.  We model the emitted lines as
`(debtor index, creditor index, amount)` triples. -/

/-- Creditor entries `[i, bal] for i, bal in enumerate(balances) if bal > 0`. -/
def creditorEntries (balances : List ℚ) : List (ℕ × ℚ) :=
  balances.enum.filter fun p => decide (0 < p.2)

/-- Debtor entries `[i, -bal] for i, bal in enumerate(balances) if bal < 0`. -/
def debtorEntries (balances : List ℚ) : List (ℕ × ℚ) :=
  (balances.enum.filter fun p => decide (p.2 < 0)).map fun p => (p.1, -p.2)

/-- The sorted creditor list of `settle` in `app1.py` (line 71). -/
def creditorList (balances : List ℚ) : List (ℕ × ℚ) :=
  sortDesc (creditorEntries balances)

/-- The sorted debtor list of `settle` in `app1.py` (line 72). -/
def debtorList (balances : List ℚ) : List (ℕ × ℚ) :=
  sortDesc (debtorEntries balances)

/-- The `while i < len(debtors) and j < len(creditors)` loop of `settle`
(`app1.py` lines 76-84).  In-place remainder updates are modelled by putting
the decremented entry back at the head when its cursor does not advance.
In the outer else branch `da - pay ≥ 0.01 > 0` forces `pay = ca`, so the
creditor remainder is `0 < 0.01` and the creditor cursor advances, exactly as
in the Python code's separate `if creditors[j][1] < 0.01` test. -/
def settleLoop : List (ℕ × ℚ) → List (ℕ × ℚ) → List (ℕ × ℕ × ℚ)
  | [], _ => []
  | _ :: _, [] => []
  | (di, da) :: ds, (ci, ca) :: cs =>
    let pay := min da ca
    (di, ci, pay) ::
      (if da - pay < 1/100 then
        if ca - pay < 1/100 then settleLoop ds cs
        else settleLoop ds ((ci, ca - pay) :: cs)
      else settleLoop ((di, da - pay) :: ds) cs)
termination_by ds cs => ds.length + cs.length
decreasing_by all_goals (simp [List.length_cons]; try omega)

/-- The transfers emitted by `settle(balances, names)` in `app1.py`. -/
def settleTransfers (balances : List ℚ) : List (ℕ × ℕ × ℚ) :=
  settleLoop (debtorList balances) (creditorList balances)

/-- Fuelled variant of `settleLoop`: one unit of fuel per iteration of the
`while` loop, `none` when fuel runs out before a cursor exhausts its list. -/
def settleLoopFuel : ℕ → List (ℕ × ℚ) → List (ℕ × ℚ) → Option (List (ℕ × ℕ × ℚ))
  | _, [], _ => some []
  | _, _ :: _, [] => some []
  | 0, _ :: _, _ :: _ => none
  | fuel + 1, (di, da) :: ds, (ci, ca) :: cs =>
    let pay := min da ca
    (if da - pay < 1/100 then
      if ca - pay < 1/100 then settleLoopFuel fuel ds cs
      else settleLoopFuel fuel ds ((ci, ca - pay) :: cs)
    else settleLoopFuel fuel ((di, da - pay) :: ds) cs).map
      fun rest => (di, ci, pay) :: rest

/-! ## Desktop settlement loop (`main.py`)

`calculate_split` builds `creditors` and `debtors` with the same comprehensions
but does NOT sort them, and advances a cursor only when its remainder is
exactly `0`. -/

/-- The settlement `while` loop of `main.py` (lines 156-169).  As in
`settleLoop`, in the outer else branch `da - pay ≠ 0` forces `pay = ca`, so
the creditor remainder is exactly `0` and the creditor cursor advances. -/
def mainSettleLoop : List (ℕ × ℚ) → List (ℕ × ℚ) → List (ℕ × ℕ × ℚ)
  | [], _ => []
  | _ :: _, [] => []
  | (di, da) :: ds, (ci, ca) :: cs =>
    let pay := min da ca
    (di, ci, pay) ::
      (if da - pay = 0 then
        if ca - pay = 0 then mainSettleLoop ds cs
        else mainSettleLoop ds ((ci, ca - pay) :: cs)
      else mainSettleLoop ((di, da - pay) :: ds) cs)
termination_by ds cs => ds.length + cs.length
decreasing_by all_goals (simp [List.length_cons]; try omega)

/-- The transfers emitted by the desktop app's settlement section: unsorted
creditor/debtor lists (`main.py` lines 141-142) fed to its loop. -/
def mainSettle (balances : List ℚ) : List (ℕ × ℕ × ℚ) :=
  mainSettleLoop (debtorEntries balances) (creditorEntries balances)

/-- The balance computation of the desktop app (`main.py` lines 138-139):
`equal_share = total_amount / total_people` and
`balances = [round(paid - equal_share, 2) for paid in contributions]`.
In the GUI flow `total_people ≥ 1` and `len(contributions) = total_people`. -/
def calculate_split_balances (total_people : ℕ) (total_amount : ℚ)
    (contributions : List ℚ) : List ℚ :=
  contributions.map fun paid => round2 (paid - total_amount / total_people)

/-! ## Balance derivation and owed calculators (`app1.py`) -/

/-- The balance comprehension shared by both calculators (`app1.py` lines 91
and 111): `[round(p - o, 2) for p, o in zip(paid, owed)]`.  `zip` silently
truncates to the shorter list. -/
def derive (paid owed : List ℚ) : List ℚ :=
  (paid.zip owed).map fun po => round2 (po.1 - po.2)

/-- `calc_with_equal_share(total_amount, paid, names)` (`app1.py` lines
87-92).  The Python body performs no validation; `len(names) = 0` raises
`ZeroDivisionError` at `total_amount / n`, modelled as `none`. -/
def calc_with_equal_share (total_amount : ℚ) (paid : List ℚ)
    (names : List String) : Option (List ℚ × List ℚ) :=
  if names.length = 0 then none
  else
    let owed_each := List.replicate names.length (total_amount / names.length)
    some (owed_each, derive paid owed_each)

/-- An itemized expense (`app1.py` lines 115-119). -/
structure Item where
  name : String
  amount : ℚ
  participants : List String

/-- Lookup in `idx = {name: i for i, name in enumerate(names)}` (`app1.py`
line 97): a duplicated name maps to its last index, an absent name to
`none`. -/
def lastIdx : List String → String → Option ℕ
  | [], _ => none
  | nm :: rest, s =>
    match lastIdx rest s with
    | some j => some (j + 1)
    | none => if nm = s then some (0 : ℕ) else none

/-- The inner `for person in participants` loop (`app1.py` lines 107-109):
each listed person found in `idx` has `share` added to their owed
accumulator; persons absent from `names` are silently skipped. -/
def addShares (names : List String) (share : ℚ) (owed : List ℚ)
    (parts : List String) : List ℚ :=
  parts.foldl
    (fun ow person =>
      match lastIdx names person with
      | some i => ow.set i (ow[i]?.getD 0 + share)
      | none => ow)
    owed

/-- One iteration of the `for it in items` loop (`app1.py` lines 100-109),
acting on the accumulator `(total_amount, owed)`: items with non-positive
amount or no participants are skipped. -/
def itemStep (names : List String) (acc : ℚ × List ℚ) (it : Item) : ℚ × List ℚ :=
  if it.amount ≤ 0 ∨ it.participants = [] then acc
  else (acc.1 + it.amount,
    addShares names (it.amount / it.participants.length) acc.2 it.participants)

/-- The accumulation phase of `calc_with_itemized`: total amount and raw
(unrounded) owed vector. -/
def itemFold (items : List Item) (names : List String) : ℚ × List ℚ :=
  items.foldl (itemStep names) (0, List.replicate names.length 0)

/-- `calc_with_itemized(items, paid, names)` (`app1.py` lines 94-112):
returns `(total_amount, owed, balances)` with owed rounded to 2 decimals. -/
def calc_with_itemized (items : List Item) (paid : List ℚ)
    (names : List String) : ℚ × List ℚ × List ℚ :=
  let ta := (itemFold items names).1
  let owed := (itemFold items names).2.map round2
  (ta, owed, derive paid owed)

/-! ## Observations on a transfer list -/

/-- Total amount paid out by participant `k` across a transfer list. -/
def paidBy (transfers : List (ℕ × ℕ × ℚ)) (k : ℕ) : ℚ :=
  (transfers.map fun t => if t.1 = k then t.2.2 else 0).sum

/-- Total amount received by participant `k` across a transfer list. -/
def recvBy (transfers : List (ℕ × ℕ × ℚ)) (k : ℕ) : ℚ :=
  (transfers.map fun t => if t.2.1 = k then t.2.2 else 0).sum

/-- Sum of all transferred amounts. -/
def totalAmt (transfers : List (ℕ × ℕ × ℚ)) : ℚ :=
  (transfers.map fun t => t.2.2).sum

/-- Participant `k`'s balance after applying every transfer: a payment reduces
the payer's (negative-balance) debt, a receipt consumes the payee's
(positive-balance) credit. -/
def appliedBalance (balances : List ℚ) (transfers : List (ℕ × ℕ × ℚ)) (k : ℕ) : ℚ :=
  balances[k]?.getD 0 + paidBy transfers k - recvBy transfers k

/-- Number of nonzero balances. -/
def nonzeroCount (balances : List ℚ) : ℕ :=
  balances.countP fun b => decide (b ≠ 0)

/-- Fuelled variant of `mainSettleLoop`, one unit of fuel per iteration. -/
def mainSettleLoopFuel : ℕ → List (ℕ × ℚ) → List (ℕ × ℚ) → Option (List (ℕ × ℕ × ℚ))
  | _, [], _ => some []
  | _, _ :: _, [] => some []
  | 0, _ :: _, _ :: _ => none
  | fuel + 1, (di, da) :: ds, (ci, ca) :: cs =>
    let pay := min da ca
    (if da - pay = 0 then
      if ca - pay = 0 then mainSettleLoopFuel fuel ds cs
      else mainSettleLoopFuel fuel ds ((ci, ca - pay) :: cs)
    else mainSettleLoopFuel fuel ((di, da - pay) :: ds) cs).map
      fun rest => (di, ci, pay) :: rest

/-! ### Unfolding equations and fuel equivalence -/

lemma settleLoop_nil_left (cs : List (ℕ × ℚ)) : settleLoop [] cs = [] := by
  simp [settleLoop]

lemma settleLoop_nil_right (ds : List (ℕ × ℚ)) : settleLoop ds [] = [] := by
  cases ds <;> simp [settleLoop]

lemma settleLoop_cons (di ci : ℕ) (da ca : ℚ) (ds cs : List (ℕ × ℚ)) :
    settleLoop ((di, da) :: ds) ((ci, ca) :: cs) =
      (di, ci, min da ca) ::
        (if da - min da ca < 1/100 then
          if ca - min da ca < 1/100 then settleLoop ds cs
          else settleLoop ds ((ci, ca - min da ca) :: cs)
        else settleLoop ((di, da - min da ca) :: ds) cs) := by
  rw [settleLoop]

lemma mainSettleLoop_nil_left (cs : List (ℕ × ℚ)) : mainSettleLoop [] cs = [] := by
  simp [mainSettleLoop]

lemma mainSettleLoop_nil_right (ds : List (ℕ × ℚ)) : mainSettleLoop ds [] = [] := by
  cases ds <;> simp [mainSettleLoop]

lemma mainSettleLoop_cons (di ci : ℕ) (da ca : ℚ) (ds cs : List (ℕ × ℚ)) :
    mainSettleLoop ((di, da) :: ds) ((ci, ca) :: cs) =
      (di, ci, min da ca) ::
        (if da - min da ca = 0 then
          if ca - min da ca = 0 then mainSettleLoop ds cs
          else mainSettleLoop ds ((ci, ca - min da ca) :: cs)
        else mainSettleLoop ((di, da - min da ca) :: ds) cs) := by
  rw [mainSettleLoop]

/-- The fuelled loop halts (returns `some`) as soon as the fuel covers the
combined length of the two cursor lists, and then computes `settleLoop`:
each iteration of the `while` loop discards at least one list entry. -/
lemma settleLoopFuel_eq_some :
    ∀ (f : ℕ) (ds cs : List (ℕ × ℚ)), ds.length + cs.length ≤ f →
      settleLoopFuel f ds cs = some (settleLoop ds cs) := by
  intro f
  induction f with
  | zero =>
    intro ds cs h
    have hds : ds = [] := by
      cases ds with
      | nil => rfl
      | cons d ds' => simp [List.length_cons] at h
    subst hds
    simp [settleLoopFuel, settleLoop_nil_left]
  | succ f ih =>
    intro ds cs h
    cases ds with
    | nil => simp [settleLoopFuel, settleLoop_nil_left]
    | cons d ds' =>
      cases cs with
      | nil => simp [settleLoopFuel, settleLoop_nil_right]
      | cons c cs' =>
        obtain ⟨di, da⟩ := d
        obtain ⟨ci, ca⟩ := c
        rw [settleLoop_cons]
        simp only [settleLoopFuel]
        have hlen : ds'.length + cs'.length + 2 ≤ f + 1 := by
          simpa [List.length_cons, Nat.add_assoc, Nat.add_comm, Nat.add_left_comm] using h
        split_ifs with h1 h2
        · rw [ih ds' cs' (by omega)]
          rfl
        · rw [ih ds' ((ci, ca - min da ca) :: cs') (by simp [List.length_cons]; omega)]
          rfl
        · rw [ih ((di, da - min da ca) :: ds') cs' (by simp [List.length_cons]; omega)]
          rfl

/-- Fuel sufficiency for the desktop loop. -/
lemma mainSettleLoopFuel_eq_some :
    ∀ (f : ℕ) (ds cs : List (ℕ × ℚ)), ds.length + cs.length ≤ f →
      mainSettleLoopFuel f ds cs = some (mainSettleLoop ds cs) := by
  intro f
  induction f with
  | zero =>
    intro ds cs h
    have hds : ds = [] := by
      cases ds with
      | nil => rfl
      | cons d ds' => simp [List.length_cons] at h
    subst hds
    simp [mainSettleLoopFuel, mainSettleLoop_nil_left]
  | succ f ih =>
    intro ds cs h
    cases ds with
    | nil => simp [mainSettleLoopFuel, mainSettleLoop_nil_left]
    | cons d ds' =>
      cases cs with
      | nil => simp [mainSettleLoopFuel, mainSettleLoop_nil_right]
      | cons c cs' =>
        obtain ⟨di, da⟩ := d
        obtain ⟨ci, ca⟩ := c
        rw [mainSettleLoop_cons]
        simp only [mainSettleLoopFuel]
        have hlen : ds'.length + cs'.length + 2 ≤ f + 1 := by
          simpa [List.length_cons, Nat.add_assoc, Nat.add_comm, Nat.add_left_comm] using h
        split_ifs with h1 h2
        · rw [ih ds' cs' (by omega)]
          rfl
        · rw [ih ds' ((ci, ca - min da ca) :: cs') (by simp [List.length_cons]; omega)]
          rfl
        · rw [ih ((di, da - min da ca) :: ds') cs' (by simp [List.length_cons]; omega)]
          rfl

/-! ### Bookkeeping over transfer lists -/

lemma paidBy_cons (t : ℕ × ℕ × ℚ) (ts : List (ℕ × ℕ × ℚ)) (k : ℕ) :
    paidBy (t :: ts) k = (if t.1 = k then t.2.2 else 0) + paidBy ts k := by
  simp [paidBy]

lemma recvBy_cons (t : ℕ × ℕ × ℚ) (ts : List (ℕ × ℕ × ℚ)) (k : ℕ) :
    recvBy (t :: ts) k = (if t.2.1 = k then t.2.2 else 0) + recvBy ts k := by
  simp [recvBy]

lemma paidBy_eq_zero {ts : List (ℕ × ℕ × ℚ)} {k : ℕ} (h : ∀ t ∈ ts, t.1 ≠ k) :
    paidBy ts k = 0 := by
  induction ts with
  | nil => rfl
  | cons t ts ih =>
    rw [paidBy_cons, if_neg (h t (List.mem_cons_self t ts)), ih fun u hu => h u (List.mem_cons_of_mem t hu)]
    ring

lemma recvBy_eq_zero {ts : List (ℕ × ℕ × ℚ)} {k : ℕ} (h : ∀ t ∈ ts, t.2.1 ≠ k) :
    recvBy ts k = 0 := by
  induction ts with
  | nil => rfl
  | cons t ts ih =>
    rw [recvBy_cons, if_neg (h t (List.mem_cons_self t ts)), ih fun u hu => h u (List.mem_cons_of_mem t hu)]
    ring

/-- Every emitted transfer names a payer from the debtor list and a payee from
the creditor list. -/
lemma settleLoop_fst_mem : ∀ (ds cs : List (ℕ × ℚ)),
    ∀ t ∈ settleLoop ds cs, t.1 ∈ ds.map Prod.fst ∧ t.2.1 ∈ cs.map Prod.fst := by
  intro ds cs
  induction ds, cs using settleLoop.induct with
  | case1 cs =>
    intro t ht
    rw [settleLoop_nil_left] at ht
    cases ht
  | case2 d ds =>
    intro t ht
    rw [settleLoop_nil_right] at ht
    cases ht
  | case3 di da ds ci ca cs pay ih1 ih2 ih3 =>
    intro t ht
    rw [settleLoop_cons] at ht
    rcases List.mem_cons.mp ht with rfl | ht'
    · exact ⟨by simp, by simp⟩
    · split_ifs at ht' with h1 h2
      · obtain ⟨hd, hc⟩ := ih1 t ht'
        exact ⟨by simp [hd], by simp [hc]⟩
      · obtain ⟨hd, hc⟩ := ih2 t ht'
        simp only [List.map_cons] at hc ⊢
        exact ⟨by simp [hd], hc⟩
      · obtain ⟨hd, hc⟩ := ih3 t ht'
        simp only [List.map_cons] at hd ⊢
        exact ⟨hd, by simp [hc]⟩

lemma paidBy_settleLoop_eq_zero {ds cs : List (ℕ × ℚ)} {k : ℕ}
    (hk : k ∉ ds.map Prod.fst) : paidBy (settleLoop ds cs) k = 0 :=
  paidBy_eq_zero fun t ht h => hk (h ▸ (settleLoop_fst_mem ds cs t ht).1)

lemma recvBy_settleLoop_eq_zero {ds cs : List (ℕ × ℚ)} {k : ℕ}
    (hk : k ∉ cs.map Prod.fst) : recvBy (settleLoop ds cs) k = 0 :=
  recvBy_eq_zero fun t ht h => hk (h ▸ (settleLoop_fst_mem ds cs t ht).2)

/-- When every remainder in both cursor lists is positive, every emitted
transfer amount is positive. -/
lemma settleLoop_pos : ∀ (ds cs : List (ℕ × ℚ)),
    (∀ x ∈ ds, 0 < x.2) → (∀ x ∈ cs, 0 < x.2) →
    ∀ t ∈ settleLoop ds cs, 0 < t.2.2 := by
  intro ds cs
  induction ds, cs using settleLoop.induct with
  | case1 cs =>
    intro _ _ t ht
    rw [settleLoop_nil_left] at ht
    cases ht
  | case2 d ds =>
    intro _ _ t ht
    rw [settleLoop_nil_right] at ht
    cases ht
  | case3 di da ds ci ca cs pay ih1 ih2 ih3 =>
    intro hd hc t ht
    have hda : 0 < da := hd (di, da) (List.mem_cons_self _ _)
    have hca : 0 < ca := hc (ci, ca) (List.mem_cons_self _ _)
    have hd' : ∀ x ∈ ds, 0 < x.2 := fun x hx => hd x (List.mem_cons_of_mem _ hx)
    have hc' : ∀ x ∈ cs, 0 < x.2 := fun x hx => hc x (List.mem_cons_of_mem _ hx)
    rw [settleLoop_cons] at ht
    rcases List.mem_cons.mp ht with rfl | ht'
    · exact lt_min hda hca
    · split_ifs at ht' with h1 h2
      · exact ih1 hd' hc' t ht'
      · refine ih2 hd' ?_ t ht'
        intro x hx
        rcases List.mem_cons.mp hx with rfl | hx'
        · have := not_lt.mp h2
          norm_num at this ⊢
          linarith
        · exact hc' x hx'
      · refine ih3 ?_ hc' t ht'
        intro x hx
        rcases List.mem_cons.mp hx with rfl | hx'
        · have := not_lt.mp h1
          norm_num at this ⊢
          linarith
        · exact hd' x hx'

lemma paidBy_cons3 (a b : ℕ) (amt : ℚ) (ts : List (ℕ × ℕ × ℚ)) (k : ℕ) :
    paidBy ((a, b, amt) :: ts) k = (if a = k then amt else 0) + paidBy ts k := by
  simp [paidBy]

lemma recvBy_cons3 (a b : ℕ) (amt : ℚ) (ts : List (ℕ × ℕ × ℚ)) (k : ℕ) :
    recvBy ((a, b, amt) :: ts) k = (if b = k then amt else 0) + recvBy ts k := by
  simp [recvBy]

/-- Key invariant of the greedy loop: no participant ever over-pays or
over-receives, and at termination at least one side of the market is fully
driven below the `0.01` tolerance (namely the side whose cursor exhausted
its list). -/
lemma settleLoop_residuals : ∀ (ds cs : List (ℕ × ℚ)),
    (∀ x ∈ ds, 0 < x.2) → (∀ x ∈ cs, 0 < x.2) →
    (ds.map Prod.fst).Nodup → (cs.map Prod.fst).Nodup →
    (∀ x ∈ ds, 0 ≤ x.2 - paidBy (settleLoop ds cs) x.1) ∧
    (∀ y ∈ cs, 0 ≤ y.2 - recvBy (settleLoop ds cs) y.1) ∧
    ((∀ x ∈ ds, x.2 - paidBy (settleLoop ds cs) x.1 < 1/100) ∨
     (∀ y ∈ cs, y.2 - recvBy (settleLoop ds cs) y.1 < 1/100)) := by
  intro ds cs
  induction ds, cs using settleLoop.induct with
  | case1 cs =>
    intro _ hc _ _
    refine ⟨fun x hx => absurd hx (List.not_mem_nil x), ?_,
      Or.inl fun x hx => absurd hx (List.not_mem_nil x)⟩
    intro y hy
    rw [settleLoop_nil_left]
    have : recvBy [] y.1 = 0 := rfl
    rw [this]
    linarith [hc y hy]
  | case2 d ds =>
    intro hd _ _ _
    refine ⟨?_, fun y hy => absurd hy (List.not_mem_nil y),
      Or.inr fun y hy => absurd hy (List.not_mem_nil y)⟩
    intro x hx
    rw [settleLoop_nil_right]
    have : paidBy [] x.1 = 0 := rfl
    rw [this]
    linarith [hd x hx]
  | case3 di da ds ci ca cs pay ih1 ih2 ih3 =>
    intro hd hc hndd hndc
    have hda : 0 < da := hd _ (List.mem_cons_self _ _)
    have hca : 0 < ca := hc _ (List.mem_cons_self _ _)
    have hd' : ∀ x ∈ ds, 0 < x.2 := fun x hx => hd x (List.mem_cons_of_mem _ hx)
    have hc' : ∀ x ∈ cs, 0 < x.2 := fun x hx => hc x (List.mem_cons_of_mem _ hx)
    have hmap_d : ((di, da) :: ds).map Prod.fst = di :: ds.map Prod.fst := rfl
    have hmap_c : ((ci, ca) :: cs).map Prod.fst = ci :: cs.map Prod.fst := rfl
    rw [hmap_d] at hndd
    rw [hmap_c] at hndc
    have hdi : di ∉ ds.map Prod.fst := (List.nodup_cons.mp hndd).1
    have hci : ci ∉ cs.map Prod.fst := (List.nodup_cons.mp hndc).1
    have hndd' : (ds.map Prod.fst).Nodup := (List.nodup_cons.mp hndd).2
    have hndc' : (cs.map Prod.fst).Nodup := (List.nodup_cons.mp hndc).2
    have hxne : ∀ x ∈ ds, di ≠ x.1 :=
      fun x hx h => hdi (h ▸ List.mem_map_of_mem Prod.fst hx)
    have hyne : ∀ y ∈ cs, ci ≠ y.1 :=
      fun y hy h => hci (h ▸ List.mem_map_of_mem Prod.fst hy)
    have hpayd : min da ca ≤ da := min_le_left _ _
    have hpayc : min da ca ≤ ca := min_le_right _ _
    rw [settleLoop_cons]
    by_cases h1 : da - min da ca < 1/100
    · by_cases h2 : ca - min da ca < 1/100
      · -- both cursors advance
        rw [if_pos h1, if_pos h2]
        obtain ⟨r1, r2, r3⟩ := ih1 hd' hc' hndd' hndc'
        have hpaid0 : paidBy (settleLoop ds cs) di = 0 := paidBy_settleLoop_eq_zero hdi
        have hrecv0 : recvBy (settleLoop ds cs) ci = 0 := recvBy_settleLoop_eq_zero hci
        refine ⟨?_, ?_, ?_⟩
        · intro x hx
          rcases List.mem_cons.mp hx with rfl | hx'
          · simp only [paidBy_cons3, if_pos rfl, hpaid0]
            simp
            try linarith
          · rw [paidBy_cons3, if_neg (hxne x hx')]
            have := r1 x hx'
            linarith
        · intro y hy
          rcases List.mem_cons.mp hy with rfl | hy'
          · simp only [recvBy_cons3, if_pos rfl, hrecv0]
            simp
            try linarith
          · rw [recvBy_cons3, if_neg (hyne y hy')]
            have := r2 y hy'
            linarith
        · rcases r3 with r3 | r3
          · refine Or.inl ?_
            intro x hx
            rcases List.mem_cons.mp hx with rfl | hx'
            · simp only [paidBy_cons3, if_pos rfl, hpaid0]
              simp
              linarith
            · rw [paidBy_cons3, if_neg (hxne x hx')]
              have := r3 x hx'
              linarith
          · refine Or.inr ?_
            intro y hy
            rcases List.mem_cons.mp hy with rfl | hy'
            · simp only [recvBy_cons3, if_pos rfl, hrecv0]
              simp
              linarith
            · rw [recvBy_cons3, if_neg (hyne y hy')]
              have := r3 y hy'
              linarith
      · -- only the debtor cursor advances
        rw [if_pos h1, if_neg h2]
        have hca' : ∀ x ∈ (ci, ca - min da ca) :: cs, 0 < x.2 := by
          intro x hx
          rcases List.mem_cons.mp hx with rfl | hx'
          · have := not_lt.mp h2
            simp only
            linarith
          · exact hc' x hx'
        have hndc2 : (((ci, ca - min da ca) :: cs).map Prod.fst).Nodup := by
          simpa using hndc
        obtain ⟨r1, r2, r3⟩ := ih2 hd' hca' hndd' hndc2
        have hpaid0 : paidBy (settleLoop ds ((ci, ca - min da ca) :: cs)) di = 0 :=
          paidBy_settleLoop_eq_zero hdi
        have hrc : 0 ≤ (ca - min da ca) - recvBy (settleLoop ds ((ci, ca - min da ca) :: cs)) ci := by
          have := r2 (ci, ca - min da ca) (List.mem_cons_self _ _)
          simpa using this
        refine ⟨?_, ?_, ?_⟩
        · intro x hx
          rcases List.mem_cons.mp hx with rfl | hx'
          · simp only [paidBy_cons3, if_pos rfl, hpaid0]
            simp
            try linarith
          · rw [paidBy_cons3, if_neg (hxne x hx')]
            have := r1 x hx'
            linarith
        · intro y hy
          rcases List.mem_cons.mp hy with rfl | hy'
          · rw [recvBy_cons3, if_pos rfl]
            simp only
            linarith
          · rw [recvBy_cons3, if_neg (hyne y hy')]
            have := r2 y (List.mem_cons_of_mem _ hy')
            linarith
        · rcases r3 with r3 | r3
          · refine Or.inl ?_
            intro x hx
            rcases List.mem_cons.mp hx with rfl | hx'
            · simp only [paidBy_cons3, if_pos rfl, hpaid0]
              simp
              linarith
            · rw [paidBy_cons3, if_neg (hxne x hx')]
              have := r3 x hx'
              linarith
          · refine Or.inr ?_
            intro y hy
            rcases List.mem_cons.mp hy with rfl | hy'
            · rw [recvBy_cons3, if_pos rfl]
              have := r3 (ci, ca - min da ca) (List.mem_cons_self _ _)
              simp only at this ⊢
              linarith
            · rw [recvBy_cons3, if_neg (hyne y hy')]
              have := r3 y (List.mem_cons_of_mem _ hy')
              linarith
    · -- only the creditor cursor advances (here min da ca = ca)
      rw [if_neg h1]
      have hda' : ∀ x ∈ (di, da - min da ca) :: ds, 0 < x.2 := by
        intro x hx
        rcases List.mem_cons.mp hx with rfl | hx'
        · have := not_lt.mp h1
          simp only
          linarith
        · exact hd' x hx'
      have hndd2 : (((di, da - min da ca) :: ds).map Prod.fst).Nodup := by
        simpa using hndd
      obtain ⟨r1, r2, r3⟩ := ih3 hda' hc' hndd2 hndc'
      have hrecv0 : recvBy (settleLoop ((di, da - min da ca) :: ds) cs) ci = 0 :=
        recvBy_settleLoop_eq_zero hci
      have hrd : 0 ≤ (da - min da ca) - paidBy (settleLoop ((di, da - min da ca) :: ds) cs) di := by
        have := r1 (di, da - min da ca) (List.mem_cons_self _ _)
        simpa using this
      have hpayca : min da ca = ca := by
        rcases min_cases da ca with ⟨hm, _⟩ | ⟨hm, _⟩
        · exfalso
          apply h1
          rw [hm]
          norm_num
        · exact hm
      refine ⟨?_, ?_, ?_⟩
      · intro x hx
        rcases List.mem_cons.mp hx with rfl | hx'
        · rw [paidBy_cons3, if_pos rfl]
          simp only
          linarith
        · rw [paidBy_cons3, if_neg (hxne x hx')]
          have := r1 x (List.mem_cons_of_mem _ hx')
          linarith
      · intro y hy
        rcases List.mem_cons.mp hy with rfl | hy'
        · simp only [recvBy_cons3, if_pos rfl, hrecv0]
          simp
          try linarith
        · rw [recvBy_cons3, if_neg (hyne y hy')]
          have := r2 y hy'
          linarith
      · rcases r3 with r3 | r3
        · refine Or.inl ?_
          intro x hx
          rcases List.mem_cons.mp hx with rfl | hx'
          · rw [paidBy_cons3, if_pos rfl]
            have := r3 (di, da - min da ca) (List.mem_cons_self _ _)
            simp only at this ⊢
            linarith
          · rw [paidBy_cons3, if_neg (hxne x hx')]
            have := r3 x (List.mem_cons_of_mem _ hx')
            linarith
        · refine Or.inr ?_
          intro y hy
          rcases List.mem_cons.mp hy with rfl | hy'
          · simp only [recvBy_cons3, if_pos rfl, hrecv0]
            simp
            rw [hpayca]
            norm_num
          · rw [recvBy_cons3, if_neg (hyne y hy')]
            have := r3 y hy'
            linarith

lemma sum_map_add {α : Type} (l : List α) (f g : α → ℚ) :
    (l.map fun x => f x + g x).sum = (l.map f).sum + (l.map g).sum := by
  induction l with
  | nil => simp
  | cons x xs ih =>
    simp [ih]
    ring

lemma sum_map_sub {α : Type} (l : List α) (f g : α → ℚ) :
    (l.map fun x => f x - g x).sum = (l.map f).sum - (l.map g).sum := by
  induction l with
  | nil => simp
  | cons x xs ih =>
    simp [ih]
    ring

lemma sum_map_ite_zero (es : List (ℕ × ℚ)) (k : ℕ) (a : ℚ)
    (hk : k ∉ es.map Prod.fst) :
    (es.map fun e => if k = e.1 then a else 0).sum = 0 := by
  induction es with
  | nil => rfl
  | cons e es ih =>
    simp only [List.map_cons, List.mem_cons] at hk ⊢
    push_neg at hk
    rw [List.sum_cons, if_neg hk.1, ih hk.2]
    ring

lemma sum_map_ite_single (es : List (ℕ × ℚ)) (k : ℕ) (a : ℚ)
    (hnd : (es.map Prod.fst).Nodup) (hk : k ∈ es.map Prod.fst) :
    (es.map fun e => if k = e.1 then a else 0).sum = a := by
  induction es with
  | nil => cases hk
  | cons e es ih =>
    simp only [List.map_cons] at hnd hk
    have h1 : e.1 ∉ es.map Prod.fst := (List.nodup_cons.mp hnd).1
    have h2 : (es.map Prod.fst).Nodup := (List.nodup_cons.mp hnd).2
    rcases List.mem_cons.mp hk with rfl | hk'
    · rw [List.map_cons, List.sum_cons, if_pos rfl, sum_map_ite_zero es e.1 a h1]
      ring
    · have hne : k ≠ e.1 := fun h => h1 (h ▸ hk')
      rw [List.map_cons, List.sum_cons, if_neg hne, ih h2 hk']
      ring

/-- Summing `paidBy` over a duplicate-free entry list that covers every payer
counts every transfer exactly once. -/
lemma sum_map_paidBy : ∀ (ts : List (ℕ × ℕ × ℚ)) (es : List (ℕ × ℚ)),
    (es.map Prod.fst).Nodup → (∀ t ∈ ts, t.1 ∈ es.map Prod.fst) →
    (es.map fun e => paidBy ts e.1).sum = totalAmt ts := by
  intro ts
  induction ts with
  | nil =>
    intro es _ _
    have : (es.map fun e => paidBy [] e.1) = es.map fun _ => (0 : ℚ) := rfl
    rw [this, totalAmt]
    simp
  | cons t ts ih =>
    intro es hnd hmem
    have step : (es.map fun e => paidBy (t :: ts) e.1) =
        es.map fun e => (if t.1 = e.1 then t.2.2 else 0) + paidBy ts e.1 := by
      apply List.map_congr_left
      intro e _
      rw [paidBy_cons]
    rw [step, sum_map_add,
      sum_map_ite_single es t.1 t.2.2 hnd (hmem t (List.mem_cons_self t ts)),
      ih es hnd fun u hu => hmem u (List.mem_cons_of_mem t hu)]
    simp [totalAmt]

/-- Summing `recvBy` over a duplicate-free entry list covering every payee
counts every transfer exactly once. -/
lemma sum_map_recvBy : ∀ (ts : List (ℕ × ℕ × ℚ)) (es : List (ℕ × ℚ)),
    (es.map Prod.fst).Nodup → (∀ t ∈ ts, t.2.1 ∈ es.map Prod.fst) →
    (es.map fun e => recvBy ts e.1).sum = totalAmt ts := by
  intro ts
  induction ts with
  | nil =>
    intro es _ _
    have : (es.map fun e => recvBy [] e.1) = es.map fun _ => (0 : ℚ) := rfl
    rw [this, totalAmt]
    simp
  | cons t ts ih =>
    intro es hnd hmem
    have step : (es.map fun e => recvBy (t :: ts) e.1) =
        es.map fun e => (if t.2.1 = e.1 then t.2.2 else 0) + recvBy ts e.1 := by
      apply List.map_congr_left
      intro e _
      rw [recvBy_cons]
    rw [step, sum_map_add,
      sum_map_ite_single es t.2.1 t.2.2 hnd (hmem t (List.mem_cons_self t ts)),
      ih es hnd fun u hu => hmem u (List.mem_cons_of_mem t hu)]
    simp [totalAmt]

/-- When debtor and creditor masses agree (balanced input), every residual is
bounded by `max(#debtors, #creditors) / 100`: the exhausted side is below the
tolerance pointwise, and the other side's total equals the exhausted side's
total leftover. -/
lemma settleLoop_residual_le (ds cs : List (ℕ × ℚ))
    (hd : ∀ x ∈ ds, 0 < x.2) (hc : ∀ x ∈ cs, 0 < x.2)
    (hndd : (ds.map Prod.fst).Nodup) (hndc : (cs.map Prod.fst).Nodup)
    (hsum : (ds.map Prod.snd).sum = (cs.map Prod.snd).sum) :
    (∀ x ∈ ds, x.2 - paidBy (settleLoop ds cs) x.1 ≤ ((max ds.length cs.length : ℕ) : ℚ) / 100) ∧
    (∀ y ∈ cs, y.2 - recvBy (settleLoop ds cs) y.1 ≤ ((max ds.length cs.length : ℕ) : ℚ) / 100) := by
  obtain ⟨r1, r2, r3⟩ := settleLoop_residuals ds cs hd hc hndd hndc
  have hpd : (ds.map fun e => paidBy (settleLoop ds cs) e.1).sum = totalAmt (settleLoop ds cs) :=
    sum_map_paidBy _ _ hndd fun t ht => (settleLoop_fst_mem ds cs t ht).1
  have hrc : (cs.map fun e => recvBy (settleLoop ds cs) e.1).sum = totalAmt (settleLoop ds cs) :=
    sum_map_recvBy _ _ hndc fun t ht => (settleLoop_fst_mem ds cs t ht).2
  have hs_d : (ds.map fun e => e.2 - paidBy (settleLoop ds cs) e.1).sum =
      (ds.map Prod.snd).sum - totalAmt (settleLoop ds cs) := by
    rw [sum_map_sub, hpd]
  have hs_c : (cs.map fun e => e.2 - recvBy (settleLoop ds cs) e.1).sum =
      (cs.map Prod.snd).sum - totalAmt (settleLoop ds cs) := by
    rw [sum_map_sub, hrc]
  have hsums : (ds.map fun e => e.2 - paidBy (settleLoop ds cs) e.1).sum =
      (cs.map fun e => e.2 - recvBy (settleLoop ds cs) e.1).sum := by
    rw [hs_d, hs_c, hsum]
  rcases r3 with hcase | hcase
  · constructor
    · intro x hx
      have hmax : (1 : ℕ) ≤ max ds.length cs.length :=
        le_max_of_le_left (List.length_pos.mpr (List.ne_nil_of_mem hx))
      have hmaxq : (1 : ℚ) ≤ ((max ds.length cs.length : ℕ) : ℚ) := by
        exact_mod_cast hmax
      have := hcase x hx
      linarith
    · intro y hy
      have hnonneg : ∀ z ∈ cs.map fun e => e.2 - recvBy (settleLoop ds cs) e.1, 0 ≤ z := by
        intro z hz
        obtain ⟨e, he, rfl⟩ := List.mem_map.mp hz
        exact r2 e he
      have h1 : y.2 - recvBy (settleLoop ds cs) y.1 ≤
          (cs.map fun e => e.2 - recvBy (settleLoop ds cs) e.1).sum :=
        List.single_le_sum hnonneg _ (List.mem_map_of_mem _ hy)
      have h3 : (ds.map fun e => e.2 - paidBy (settleLoop ds cs) e.1).sum ≤
          (ds.length : ℚ) * (1/100) := by
        have hb : ∀ z ∈ ds.map fun e => e.2 - paidBy (settleLoop ds cs) e.1, z ≤ 1/100 := by
          intro z hz
          obtain ⟨e, he, rfl⟩ := List.mem_map.mp hz
          exact le_of_lt (hcase e he)
        have := List.sum_le_card_nsmul _ _ hb
        rwa [List.length_map, nsmul_eq_mul] at this
      have h4 : ((ds.length : ℕ) : ℚ) ≤ ((max ds.length cs.length : ℕ) : ℚ) := by
        exact_mod_cast le_max_left ds.length cs.length
      linarith [hsums]
  · constructor
    · intro x hx
      have hnonneg : ∀ z ∈ ds.map fun e => e.2 - paidBy (settleLoop ds cs) e.1, 0 ≤ z := by
        intro z hz
        obtain ⟨e, he, rfl⟩ := List.mem_map.mp hz
        exact r1 e he
      have h1 : x.2 - paidBy (settleLoop ds cs) x.1 ≤
          (ds.map fun e => e.2 - paidBy (settleLoop ds cs) e.1).sum :=
        List.single_le_sum hnonneg _ (List.mem_map_of_mem _ hx)
      have h3 : (cs.map fun e => e.2 - recvBy (settleLoop ds cs) e.1).sum ≤
          (cs.length : ℚ) * (1/100) := by
        have hb : ∀ z ∈ cs.map fun e => e.2 - recvBy (settleLoop ds cs) e.1, z ≤ 1/100 := by
          intro z hz
          obtain ⟨e, he, rfl⟩ := List.mem_map.mp hz
          exact le_of_lt (hcase e he)
        have := List.sum_le_card_nsmul _ _ hb
        rwa [List.length_map, nsmul_eq_mul] at this
      have h4 : ((cs.length : ℕ) : ℚ) ≤ ((max ds.length cs.length : ℕ) : ℚ) := by
        exact_mod_cast le_max_right ds.length cs.length
      linarith [hsums]
    · intro y hy
      have hmax : (1 : ℕ) ≤ max ds.length cs.length :=
        le_max_of_le_right (List.length_pos.mpr (List.ne_nil_of_mem hy))
      have hmaxq : (1 : ℚ) ≤ ((max ds.length cs.length : ℕ) : ℚ) := by
        exact_mod_cast hmax
      have := hcase y hy
      linarith

/-! ### Entry lists versus the balance vector -/

lemma enumFrom_filter_map (q : ℚ → Bool) (f : ℚ → ℚ) :
    ∀ (n : ℕ) (l : List ℚ),
      ((List.enumFrom n l).filter fun p => q p.2).map (fun p => f p.2) =
        (l.filter q).map f := by
  intro n l
  induction l generalizing n with
  | nil => rfl
  | cons x xs ih =>
    rw [List.enumFrom_cons, List.filter_cons, List.filter_cons]
    cases hq : q x with
    | true => simp [hq, ih]
    | false => simp [hq, ih]

lemma creditorEntries_map_snd (balances : List ℚ) :
    (creditorEntries balances).map Prod.snd =
      balances.filter fun b => decide (0 < b) := by
  rw [creditorEntries, List.enum_eq_enumFrom]
  have h := enumFrom_filter_map (fun b => decide (0 < b)) id 0 balances
  simpa using h

lemma debtorEntries_map_snd (balances : List ℚ) :
    (debtorEntries balances).map Prod.snd =
      (balances.filter fun b => decide (b < 0)).map fun b => -b := by
  rw [debtorEntries, List.map_map]
  have hfun : (Prod.snd ∘ fun p : ℕ × ℚ => (p.1, -p.2)) = fun p : ℕ × ℚ => -p.2 := rfl
  rw [hfun, List.enum_eq_enumFrom]
  exact enumFrom_filter_map (fun b => decide (b < 0)) (fun b => -b) 0 balances

lemma length_creditorEntries (balances : List ℚ) :
    (creditorEntries balances).length =
      (balances.filter fun b => decide (0 < b)).length := by
  have h := congrArg List.length (creditorEntries_map_snd balances)
  simpa using h

lemma length_debtorEntries (balances : List ℚ) :
    (debtorEntries balances).length =
      (balances.filter fun b => decide (b < 0)).length := by
  have h := congrArg List.length (debtorEntries_map_snd balances)
  simpa using h

lemma sum_filter_pos_add_filter_neg : ∀ (l : List ℚ),
    (l.filter fun b => decide (0 < b)).sum + (l.filter fun b => decide (b < 0)).sum
      = l.sum := by
  intro l
  induction l with
  | nil => simp
  | cons x xs ih =>
    rcases lt_trichotomy 0 x with hx | hx | hx
    · have h2 : ¬ (x < 0) := by linarith
      simp [List.filter_cons, hx, h2]
      linarith [ih]
    · have h1 : ¬ (0 < x) := by linarith
      have h2 : ¬ (x < 0) := by linarith
      simp [List.filter_cons, h1, h2, ← hx]
      linarith [ih]
    · have h1 : ¬ (0 < x) := by linarith
      simp [List.filter_cons, h1, hx]
      linarith [ih]

lemma sum_map_neg_q (l : List ℚ) : (l.map fun b => -b).sum = -l.sum := by
  induction l with
  | nil => simp
  | cons x xs ih =>
    simp [ih]
    ring

/-- A balance vector summing to zero splits into equal creditor and debtor
masses. -/
lemma entries_sum_eq_of_sum_zero (balances : List ℚ) (h : balances.sum = 0) :
    ((debtorEntries balances).map Prod.snd).sum =
      ((creditorEntries balances).map Prod.snd).sum := by
  rw [creditorEntries_map_snd, debtorEntries_map_snd, sum_map_neg_q]
  have := sum_filter_pos_add_filter_neg balances
  linarith

lemma enum_pairwise_fst (l : List ℚ) :
    List.Pairwise (fun a b : ℕ × ℚ => a.1 < b.1) l.enum := by
  have h := List.pairwise_lt_range l.length
  rw [← List.enum_map_fst l] at h
  exact List.pairwise_map.mp h

lemma creditorEntries_pairwise_fst (balances : List ℚ) :
    List.Pairwise (fun a b : ℕ × ℚ => a.1 < b.1) (creditorEntries balances) :=
  (enum_pairwise_fst balances).filter _

lemma debtorEntries_pairwise_fst (balances : List ℚ) :
    List.Pairwise (fun a b : ℕ × ℚ => a.1 < b.1) (debtorEntries balances) := by
  rw [debtorEntries]
  exact List.pairwise_map.mpr ((enum_pairwise_fst balances).filter _)

lemma nodup_fst_of_pairwise {l : List (ℕ × ℚ)}
    (h : List.Pairwise (fun a b : ℕ × ℚ => a.1 < b.1) l) :
    (l.map Prod.fst).Nodup := by
  have h' : List.Pairwise (fun a b : ℕ × ℚ => a.1 ≠ b.1) l := h.imp fun hlt => ne_of_lt hlt
  exact List.pairwise_map.mpr h'

lemma nodup_fst_creditorList (balances : List ℚ) :
    ((creditorList balances).map Prod.fst).Nodup := by
  have hperm : List.Perm ((creditorList balances).map Prod.fst)
      ((creditorEntries balances).map Prod.fst) := (sortDesc_perm _).map _
  exact hperm.symm.nodup (nodup_fst_of_pairwise (creditorEntries_pairwise_fst balances))

lemma nodup_fst_debtorList (balances : List ℚ) :
    ((debtorList balances).map Prod.fst).Nodup := by
  have hperm : List.Perm ((debtorList balances).map Prod.fst)
      ((debtorEntries balances).map Prod.fst) := (sortDesc_perm _).map _
  exact hperm.symm.nodup (nodup_fst_of_pairwise (debtorEntries_pairwise_fst balances))

lemma mem_creditorEntries {balances : List ℚ} {k : ℕ} {b : ℚ} :
    (k, b) ∈ creditorEntries balances ↔ balances[k]? = some b ∧ 0 < b := by
  rw [creditorEntries, List.mem_filter, List.mem_enum_iff_getElem?]
  simp

lemma mem_debtorEntries {balances : List ℚ} {k : ℕ} {a : ℚ} :
    (k, a) ∈ debtorEntries balances ↔ balances[k]? = some (-a) ∧ 0 < a := by
  rw [debtorEntries]
  simp only [List.mem_map, List.mem_filter, List.mem_enum_iff_getElem?]
  constructor
  · rintro ⟨p, ⟨hp, hneg⟩, heq⟩
    have h1 : p.1 = k := congrArg Prod.fst heq
    have h2 : -p.2 = a := congrArg Prod.snd heq
    subst h1
    have hneg' : p.2 < 0 := by simpa using hneg
    constructor
    · rw [← h2, neg_neg]
      exact hp
    · linarith [h2.symm]
  · rintro ⟨hget, hpos⟩
    refine ⟨(k, -a), ⟨hget, ?_⟩, by simp⟩
    simp
    linarith

lemma mem_creditorList {balances : List ℚ} {k : ℕ} {b : ℚ} :
    (k, b) ∈ creditorList balances ↔ balances[k]? = some b ∧ 0 < b := by
  rw [creditorList, (sortDesc_perm _).mem_iff]
  exact mem_creditorEntries

lemma mem_debtorList {balances : List ℚ} {k : ℕ} {a : ℚ} :
    (k, a) ∈ debtorList balances ↔ balances[k]? = some (-a) ∧ 0 < a := by
  rw [debtorList, (sortDesc_perm _).mem_iff]
  exact mem_debtorEntries

lemma length_creditorList_le (balances : List ℚ) :
    (creditorList balances).length ≤ balances.length := by
  rw [creditorList, (sortDesc_perm _).length_eq, length_creditorEntries]
  calc (balances.filter fun b => decide (0 < b)).length
      ≤ balances.length := (List.filter_sublist balances).length_le

lemma length_debtorList_le (balances : List ℚ) :
    (debtorList balances).length ≤ balances.length := by
  rw [debtorList, (sortDesc_perm _).length_eq, length_debtorEntries]
  calc (balances.filter fun b => decide (b < 0)).length
      ≤ balances.length := (List.filter_sublist balances).length_le

lemma not_mem_debtor_fst_of_nonneg {balances : List ℚ} {k : ℕ} {b : ℚ}
    (hbk : balances[k]? = some b) (hb : 0 ≤ b) :
    k ∉ (debtorList balances).map Prod.fst := by
  intro hmem
  obtain ⟨x, hx, hxk⟩ := List.mem_map.mp hmem
  have hx' : (k, x.2) ∈ debtorList balances := by
    rw [← hxk]
    exact hx
  obtain ⟨hget, hpos⟩ := mem_debtorList.mp hx'
  rw [hbk] at hget
  have : b = -x.2 := by
    exact Option.some_inj.mp hget
  linarith

lemma not_mem_creditor_fst_of_nonpos {balances : List ℚ} {k : ℕ} {b : ℚ}
    (hbk : balances[k]? = some b) (hb : b ≤ 0) :
    k ∉ (creditorList balances).map Prod.fst := by
  intro hmem
  obtain ⟨x, hx, hxk⟩ := List.mem_map.mp hmem
  have hx' : (k, x.2) ∈ creditorList balances := by
    rw [← hxk]
    exact hx
  obtain ⟨hget, hpos⟩ := mem_creditorList.mp hx'
  rw [hbk] at hget
  have : b = x.2 := Option.some_inj.mp hget
  linarith

/-- Core bound behind the settlement-correctness analysis: on a balance vector
summing to zero, applying every transfer leaves each participant within
`length / 100` of zero. -/
lemma settle_residual_bound (balances : List ℚ) (hsum : balances.sum = 0)
    (k : ℕ) (hk : k < balances.length) :
    |appliedBalance balances (settleTransfers balances) k| ≤ (balances.length : ℚ) / 100 := by
  have hposc : ∀ x ∈ creditorList balances, 0 < x.2 := by
    rintro ⟨a, b⟩ hx
    exact (mem_creditorList.mp hx).2
  have hposd : ∀ x ∈ debtorList balances, 0 < x.2 := by
    rintro ⟨a, b⟩ hx
    exact (mem_debtorList.mp hx).2
  have hndd := nodup_fst_debtorList balances
  have hndc := nodup_fst_creditorList balances
  have hsum_entries : ((debtorList balances).map Prod.snd).sum =
      ((creditorList balances).map Prod.snd).sum := by
    have hd := ((sortDesc_perm (debtorEntries balances)).map Prod.snd).sum_eq
    have hc := ((sortDesc_perm (creditorEntries balances)).map Prod.snd).sum_eq
    rw [debtorList, creditorList, hd, hc]
    exact entries_sum_eq_of_sum_zero balances hsum
  obtain ⟨bd, bc⟩ := settleLoop_residual_le (debtorList balances) (creditorList balances)
    hposd hposc hndd hndc hsum_entries
  obtain ⟨r1, r2, _⟩ := settleLoop_residuals (debtorList balances) (creditorList balances)
    hposd hposc hndd hndc
  have hmax : ((max (debtorList balances).length (creditorList balances).length : ℕ) : ℚ)
      ≤ (balances.length : ℚ) := by
    exact_mod_cast max_le (length_debtorList_le balances) (length_creditorList_le balances)
  have hbk : balances[k]? = some balances[k] := List.getElem?_eq_getElem hk
  have hnq : (0 : ℚ) ≤ (balances.length : ℚ) / 100 := by positivity
  rcases lt_trichotomy 0 balances[k] with hb | hb | hb
  · -- positive balance: participant k is a creditor
    have hmem : (k, balances[k]) ∈ creditorList balances := mem_creditorList.mpr ⟨hbk, hb⟩
    have hpaid : paidBy (settleTransfers balances) k = 0 :=
      paidBy_settleLoop_eq_zero (not_mem_debtor_fst_of_nonneg hbk (le_of_lt hb))
    have h0 : 0 ≤ balances[k] - recvBy (settleTransfers balances) k :=
      r2 (k, balances[k]) hmem
    have h1 : balances[k] - recvBy (settleTransfers balances) k ≤
        ((max (debtorList balances).length (creditorList balances).length : ℕ) : ℚ) / 100 :=
      bc (k, balances[k]) hmem
    have happ : appliedBalance balances (settleTransfers balances) k =
        balances[k] - recvBy (settleTransfers balances) k := by
      rw [appliedBalance, hbk, hpaid]
      simp only [Option.getD_some]
      ring
    rw [happ, abs_of_nonneg h0]
    linarith
  · -- zero balance: participant k appears in neither list
    have hpaid : paidBy (settleTransfers balances) k = 0 :=
      paidBy_settleLoop_eq_zero (not_mem_debtor_fst_of_nonneg hbk (by rw [← hb]))
    have hrecv : recvBy (settleTransfers balances) k = 0 :=
      recvBy_settleLoop_eq_zero (not_mem_creditor_fst_of_nonpos hbk (by rw [← hb]))
    rw [appliedBalance, hbk, hpaid, hrecv, ← hb]
    simpa using hnq
  · -- negative balance: participant k is a debtor
    have hget : balances[k]? = some (-(-balances[k])) := by
      rw [hbk]
      simp
    have hmem : (k, -balances[k]) ∈ debtorList balances :=
      mem_debtorList.mpr ⟨hget, by linarith⟩
    have hrecv : recvBy (settleTransfers balances) k = 0 :=
      recvBy_settleLoop_eq_zero (not_mem_creditor_fst_of_nonpos hbk (le_of_lt hb))
    have h0 : 0 ≤ -balances[k] - paidBy (settleTransfers balances) k :=
      r1 (k, -balances[k]) hmem
    have h1 : -balances[k] - paidBy (settleTransfers balances) k ≤
        ((max (debtorList balances).length (creditorList balances).length : ℕ) : ℚ) / 100 :=
      bd (k, -balances[k]) hmem
    have happ : appliedBalance balances (settleTransfers balances) k =
        -(-balances[k] - paidBy (settleTransfers balances) k) := by
      rw [appliedBalance, hbk, hrecv]
      simp only [Option.getD_some]
      ring
    rw [happ, abs_neg, abs_of_nonneg h0]
    linarith

/-- Concrete-evaluation bridge for `settleTransfers`: any sufficiently fuelled
run of the loop computes it. -/
lemma settleTransfers_eval (balances : List ℚ) (f : ℕ) (out : List (ℕ × ℕ × ℚ))
    (hf : (debtorList balances).length + (creditorList balances).length ≤ f)
    (h : settleLoopFuel f (debtorList balances) (creditorList balances) = some out) :
    settleTransfers balances = out := by
  have h2 := settleLoopFuel_eq_some f (debtorList balances) (creditorList balances) hf
  rw [h] at h2
  exact (Option.some_inj.mp h2).symm

/-- Concrete-evaluation bridge for `mainSettle`. -/
lemma mainSettle_eval (balances : List ℚ) (f : ℕ) (out : List (ℕ × ℕ × ℚ))
    (hf : (debtorEntries balances).length + (creditorEntries balances).length ≤ f)
    (h : mainSettleLoopFuel f (debtorEntries balances) (creditorEntries balances) = some out) :
    mainSettle balances = out := by
  have h2 := mainSettleLoopFuel_eq_some f (debtorEntries balances) (creditorEntries balances) hf
  rw [h] at h2
  exact (Option.some_inj.mp h2).symm

/-- Each loop iteration emits one transfer and discards at least one list
entry, so with both lists nonempty the transfer count stays below the total
entry count. -/
lemma settleLoop_length_le : ∀ (ds cs : List (ℕ × ℚ)), ds ≠ [] → cs ≠ [] →
    (settleLoop ds cs).length + 1 ≤ ds.length + cs.length := by
  intro ds cs
  induction ds, cs using settleLoop.induct with
  | case1 cs =>
    intro h _
    exact absurd rfl h
  | case2 d ds =>
    intro _ h
    exact absurd rfl h
  | case3 di da ds ci ca cs pay ih1 ih2 ih3 =>
    intro _ _
    rw [settleLoop_cons]
    by_cases h1 : da - min da ca < 1/100
    · by_cases h2 : ca - min da ca < 1/100
      · rw [if_pos h1, if_pos h2]
        by_cases hds : ds = []
        · subst hds
          rw [settleLoop_nil_left]
          simp only [List.length_nil, List.length_cons]
          omega
        · by_cases hcs : cs = []
          · subst hcs
            rw [settleLoop_nil_right]
            simp only [List.length_nil, List.length_cons]
            omega
          · have := ih1 hds hcs
            simp only [List.length_cons] at this ⊢
            omega
      · rw [if_pos h1, if_neg h2]
        by_cases hds : ds = []
        · subst hds
          rw [settleLoop_nil_left]
          simp only [List.length_nil, List.length_cons]
          omega
        · have hthis : (settleLoop ds ((ci, ca - min da ca) :: cs)).length + 1 ≤
              ds.length + ((ci, ca - min da ca) :: cs).length := ih2 hds (List.cons_ne_nil _ _)
          simp only [List.length_cons] at hthis ⊢
          omega
    · rw [if_neg h1]
      by_cases hcs : cs = []
      · subst hcs
        rw [settleLoop_nil_right]
        simp only [List.length_nil, List.length_cons]
        omega
      · have hthis : (settleLoop ((di, da - min da ca) :: ds) cs).length + 1 ≤
            ((di, da - min da ca) :: ds).length + cs.length := ih3 (List.cons_ne_nil _ _) hcs
        simp only [List.length_cons] at hthis ⊢
        omega

/-- Counting filters by sign: the nonzero entries split into negatives and
positives. -/
lemma length_filter_trichotomy : ∀ (l : List ℚ),
    (l.filter fun b => decide (b ≠ 0)).length =
      (l.filter fun b => decide (b < 0)).length +
        (l.filter fun b => decide (0 < b)).length := by
  intro l
  induction l with
  | nil => rfl
  | cons x xs ih =>
    rw [List.filter_cons, List.filter_cons, List.filter_cons]
    rcases lt_trichotomy 0 x with hx | hx | hx
    · have e1 : decide (x ≠ 0) = true := decide_eq_true (by intro h; rw [h] at hx; exact lt_irrefl 0 hx)
      have e2 : decide (x < 0) = false := decide_eq_false (by linarith)
      have e3 : decide (0 < x) = true := decide_eq_true hx
      rw [if_pos e1, if_neg (by rw [e2]; exact Bool.false_ne_true), if_pos e3]
      simp only [List.length_cons]
      omega
    · have e1 : decide (x ≠ 0) = false := decide_eq_false (by intro h; exact h hx.symm)
      have e2 : decide (x < 0) = false := decide_eq_false (by linarith)
      have e3 : decide (0 < x) = false := decide_eq_false (by linarith)
      rw [if_neg (by rw [e1]; exact Bool.false_ne_true),
        if_neg (by rw [e2]; exact Bool.false_ne_true),
        if_neg (by rw [e3]; exact Bool.false_ne_true)]
      exact ih
    · have e1 : decide (x ≠ 0) = true := decide_eq_true (by intro h; rw [h] at hx; exact lt_irrefl 0 hx)
      have e2 : decide (x < 0) = true := decide_eq_true hx
      have e3 : decide (0 < x) = false := decide_eq_false (by linarith)
      rw [if_pos e1, if_pos e2, if_neg (by rw [e3]; exact Bool.false_ne_true)]
      simp only [List.length_cons]
      omega

/-- The nonzero balances are exactly the debtors plus the creditors. -/
lemma nonzeroCount_eq (balances : List ℚ) :
    nonzeroCount balances = (debtorEntries balances).length + (creditorEntries balances).length := by
  rw [nonzeroCount, length_creditorEntries, length_debtorEntries,
    List.countP_eq_length_filter]
  exact length_filter_trichotomy balances

/-! ### Balance derivation -/

lemma length_derive (paid owed : List ℚ) :
    (derive paid owed).length = min paid.length owed.length := by
  rw [derive, List.length_map, List.length_zip]

lemma derive_getElem (paid owed : List ℚ) (i : ℕ)
    (hp : i < paid.length) (ho : i < owed.length) :
    (derive paid owed)[i]? = some (round2 (paid[i] - owed[i])) := by
  have hz : i < (paid.zip owed).length := by
    rw [List.length_zip]
    omega
  rw [derive, List.getElem?_map, List.getElem?_eq_getElem hz]
  simp [List.getElem_zip]

lemma sum_zip_sub : ∀ (paid owed : List ℚ), paid.length = owed.length →
    ((paid.zip owed).map fun po => po.1 - po.2).sum = paid.sum - owed.sum := by
  intro paid
  induction paid with
  | nil =>
    intro owed h
    have : owed = [] := List.length_eq_zero.mp h.symm
    subst this
    simp
  | cons p ps ih =>
    intro owed h
    cases owed with
    | nil => simp at h
    | cons o os =>
      simp only [List.zip_cons_cons, List.map_cons, List.sum_cons, List.length_cons] at h ⊢
      rw [ih os (by omega)]
      ring

lemma abs_sum_derive (paid owed : List ℚ) (h : paid.length = owed.length) :
    |(derive paid owed).sum - (paid.sum - owed.sum)| ≤ (paid.length : ℚ) / 200 := by
  rw [derive]
  have hmap : (paid.zip owed).map (fun po => round2 (po.1 - po.2)) =
      ((paid.zip owed).map fun po => po.1 - po.2).map round2 := by
    rw [List.map_map]
    rfl
  rw [hmap]
  have hb := abs_sum_map_round2_sub ((paid.zip owed).map fun po => po.1 - po.2)
  rw [sum_zip_sub paid owed h, List.length_map, List.length_zip] at hb
  have hmin : paid.length ⊓ owed.length = paid.length := by omega
  rwa [hmin] at hb

lemma derive_replicate (paid : List ℚ) (c : ℚ) : ∀ (n : ℕ), paid.length ≤ n →
    derive paid (List.replicate n c) = paid.map fun p => round2 (p - c) := by
  induction paid with
  | nil =>
    intro n h
    rfl
  | cons p ps ih =>
    intro n h
    cases n with
    | zero => simp at h
    | succ n =>
      have h' : ps.length ≤ n := by
        simp only [List.length_cons] at h
        omega
      have hrec := ih n h'
      rw [List.replicate_succ]
      show ((p :: ps).zip (c :: List.replicate n c)).map (fun po => round2 (po.1 - po.2)) =
        (p :: ps).map fun q => round2 (q - c)
      rw [List.zip_cons_cons, List.map_cons, List.map_cons]
      congr 1

/-- `calc_with_equal_share` on a nonempty name list: no validation, every owed
entry is `total / n`, balances come from `derive`. -/
lemma calc_with_equal_share_eq (total : ℚ) (paid : List ℚ) (names : List String)
    (h : names ≠ []) :
    calc_with_equal_share total paid names =
      some (List.replicate names.length (total / names.length),
        derive paid (List.replicate names.length (total / names.length))) := by
  rw [calc_with_equal_share, if_neg (by simpa using h)]

lemma sum_replicate_div (n : ℕ) (t : ℚ) (h : n ≠ 0) :
    (List.replicate n (t / n)).sum = t := by
  rw [List.sum_replicate, nsmul_eq_mul]
  field_simp

/-! ### Itemized owed calculation -/

lemma lastIdx_eq_none_iff : ∀ (names : List String) (s : String),
    lastIdx names s = none ↔ s ∉ names := by
  intro names s
  induction names with
  | nil => simp [lastIdx]
  | cons nm rest ih =>
    rw [lastIdx]
    cases h : lastIdx rest s with
    | some j =>
      have hmem : s ∈ rest := by
        by_contra hc
        rw [ih.mpr hc] at h
        cases h
      simp [hmem]
    | none =>
      by_cases he : nm = s
      · simp [he]
      · have hns : s ≠ nm := fun hs => he hs.symm
        simp [he, hns, ih.mp h]

lemma lastIdx_getElem : ∀ (names : List String) (s : String) (i : ℕ),
    lastIdx names s = some i → names[i]? = some s := by
  intro names
  induction names with
  | nil =>
    intro s i h
    cases h
  | cons nm rest ih =>
    intro s i h
    rw [lastIdx] at h
    cases hr : lastIdx rest s with
    | some j =>
      rw [hr] at h
      have : i = j + 1 := (Option.some_inj.mp h).symm
      subst this
      simpa using ih s j hr
    | none =>
      rw [hr] at h
      by_cases he : nm = s
      · rw [if_pos he] at h
        have : i = 0 := (Option.some_inj.mp h).symm
        subst this
        simp [he]
      · rw [if_neg he] at h
        cases h

lemma lastIdx_lt (names : List String) (s : String) (i : ℕ)
    (h : lastIdx names s = some i) : i < names.length :=
  (List.getElem?_eq_some.mp (lastIdx_getElem names s i h)).1

lemma addShares_cons (names : List String) (share : ℚ) (ow : List ℚ)
    (person : String) (parts : List String) :
    addShares names share ow (person :: parts) =
      addShares names share
        (match lastIdx names person with
          | some i => ow.set i (ow[i]?.getD 0 + share)
          | none => ow) parts := rfl

lemma addShares_length (names : List String) (share : ℚ) :
    ∀ (parts : List String) (ow : List ℚ),
      (addShares names share ow parts).length = ow.length := by
  intro parts
  induction parts with
  | nil =>
    intro ow
    rfl
  | cons person parts ih =>
    intro ow
    cases h : lastIdx names person with
    | some i =>
      have hstep : addShares names share ow (person :: parts) =
          addShares names share (ow.set i (ow[i]?.getD 0 + share)) parts := by
        rw [addShares_cons, h]
      rw [hstep, ih, List.length_set]
    | none =>
      have hstep : addShares names share ow (person :: parts) =
          addShares names share ow parts := by
        rw [addShares_cons, h]
      rw [hstep, ih]

lemma sum_set_add : ∀ (l : List ℚ) (i : ℕ), i < l.length → ∀ (s : ℚ),
    (l.set i (l[i]?.getD 0 + s)).sum = l.sum + s := by
  intro l
  induction l with
  | nil =>
    intro i h
    simp at h
  | cons x xs ih =>
    intro i h s
    cases i with
    | zero =>
      rw [List.set_cons_zero]
      simp [List.sum_cons]
      ring
    | succ i =>
      have h' : i < xs.length := by
        simpa using h
      rw [List.set_cons_succ]
      have hget : (x :: xs)[i + 1]? = xs[i]? := by
        simp
      rw [hget]
      simp only [List.sum_cons, ih i h' s]
      ring

lemma addShares_sum (names : List String) (share : ℚ) :
    ∀ (parts : List String) (ow : List ℚ), ow.length = names.length →
      (addShares names share ow parts).sum =
        ow.sum + share * (((parts.filter fun p => decide (p ∈ names)).length : ℕ) : ℚ) := by
  intro parts
  induction parts with
  | nil =>
    intro ow _
    simp [addShares]
  | cons person parts ih =>
    intro ow h
    rw [List.filter_cons]
    by_cases hmem : person ∈ names
    · have hsome : (lastIdx names person).isSome := by
        rw [Option.isSome_iff_ne_none]
        intro hc
        exact (lastIdx_eq_none_iff names person).mp hc hmem
      obtain ⟨i, hi⟩ := Option.isSome_iff_exists.mp hsome
      have hlt : i < names.length := lastIdx_lt names person i hi
      have hlt' : i < ow.length := by omega
      have hstep : addShares names share ow (person :: parts) =
          addShares names share (ow.set i (ow[i]?.getD 0 + share)) parts := by
        rw [addShares_cons, hi]
      have hlen' : (ow.set i (ow[i]?.getD 0 + share)).length = names.length := by
        rw [List.length_set]
        exact h
      rw [hstep, ih _ hlen', sum_set_add ow i hlt' share,
        if_pos (decide_eq_true hmem)]
      simp only [List.length_cons]
      push_cast
      ring
    · have hnone : lastIdx names person = none := (lastIdx_eq_none_iff names person).mpr hmem
      have hstep : addShares names share ow (person :: parts) =
          addShares names share ow parts := by
        rw [addShares_cons, hnone]
      rw [hstep, ih ow h, if_neg (by rw [decide_eq_false hmem]; exact Bool.false_ne_true)]

/-- Value invariant of the items fold: the raw owed sum tracks the accumulated
total exactly, as long as every listed participant is found in `names`. -/
lemma itemFold_invariant (names : List String) : ∀ (items : List Item) (acc : ℚ × List ℚ),
    acc.2.length = names.length →
    (∀ it ∈ items, ∀ p ∈ it.participants, p ∈ names) →
    ((items.foldl (itemStep names) acc).2.length = names.length ∧
     (items.foldl (itemStep names) acc).2.sum - (items.foldl (itemStep names) acc).1 =
       acc.2.sum - acc.1) := by
  intro items
  induction items with
  | nil =>
    intro acc h _
    exact ⟨h, rfl⟩
  | cons it items ih =>
    intro acc hlen hall
    rw [List.foldl_cons]
    have hstep : (itemStep names acc it).2.length = names.length ∧
        (itemStep names acc it).2.sum - (itemStep names acc it).1 = acc.2.sum - acc.1 := by
      by_cases hskip : it.amount ≤ 0 ∨ it.participants = []
      · rw [itemStep, if_pos hskip]
        exact ⟨hlen, rfl⟩
      · push_neg at hskip
        have hpne : it.participants ≠ [] := hskip.2
        have hlenp : 0 < it.participants.length := List.length_pos.mpr hpne
        have hlenq : ((it.participants.length : ℕ) : ℚ) ≠ 0 := by
          exact_mod_cast Nat.pos_iff_ne_zero.mp hlenp
        rw [itemStep, if_neg (by push_neg; exact hskip)]
        constructor
        · rw [addShares_length]
          exact hlen
        · rw [addShares_sum names _ it.participants acc.2 hlen]
          have hfilter : it.participants.filter (fun p => decide (p ∈ names)) = it.participants := by
            rw [List.filter_eq_self]
            intro p hp
            exact decide_eq_true (hall it (List.mem_cons_self _ _) p hp)
          rw [hfilter]
          field_simp
          try ring
    have := ih (itemStep names acc it) hstep.1 fun u hu => hall u (List.mem_cons_of_mem _ hu)
    exact ⟨this.1, this.2.trans hstep.2⟩

/-- Raw owed sum equals the accumulated total when every item participant is
known, and the owed vector always has one entry per name. -/
lemma itemFold_sum (items : List Item) (names : List String)
    (hall : ∀ it ∈ items, ∀ p ∈ it.participants, p ∈ names) :
    (itemFold items names).2.sum = (itemFold items names).1 ∧
      (itemFold items names).2.length = names.length := by
  have h := itemFold_invariant names items (0, List.replicate names.length 0)
    (by simp) hall
  have hz : (List.replicate names.length (0 : ℚ)).sum = 0 := by
    simp
  constructor
  · have := h.2
    simp only [hz] at this
    rw [itemFold]
    linarith [this]
  · exact h.1

lemma itemStep_length (names : List String) (acc : ℚ × List ℚ) (it : Item) :
    (itemStep names acc it).2.length = acc.2.length := by
  rw [itemStep]
  by_cases hskip : it.amount ≤ 0 ∨ it.participants = []
  · rw [if_pos hskip]
  · rw [if_neg hskip]
    exact addShares_length names _ it.participants acc.2

lemma foldl_itemStep_length (names : List String) : ∀ (items : List Item) (acc : ℚ × List ℚ),
    ((items.foldl (itemStep names) acc).2).length = acc.2.length := by
  intro items
  induction items with
  | nil =>
    intro acc
    rfl
  | cons it items ih =>
    intro acc
    rw [List.foldl_cons, ih, itemStep_length]

/-- Length of the owed vector produced by the items fold, with no hypothesis
on the participants. -/
lemma itemFold_length (items : List Item) (names : List String) :
    (itemFold items names).2.length = names.length := by
  rw [itemFold, foldl_itemStep_length]
  simp

/-- Elementwise effect of one item's share distribution, on duplicate-free
names and participants: each master participant named by the item gains
exactly one share, everyone else's accumulator is untouched, and shares of
names outside the master list land nowhere. -/
lemma addShares_getElem (names : List String) (share : ℚ) (hnd : names.Nodup) :
    ∀ (parts : List String) (ow : List ℚ) (i : ℕ) (nm : String),
      parts.Nodup → ow.length = names.length → names[i]? = some nm →
      (addShares names share ow parts)[i]? =
        some (ow[i]?.getD 0 + if nm ∈ parts then share else 0) := by
  intro parts
  induction parts with
  | nil =>
    intro ow i nm _ hlen hi
    have hilt : i < names.length := (List.getElem?_eq_some.mp hi).1
    have hiow : i < ow.length := by omega
    rw [show addShares names share ow [] = ow from rfl,
      List.getElem?_eq_getElem hiow]
    simp
  | cons person parts ih =>
    intro ow i nm hndp hlen hi
    have hilt : i < names.length := (List.getElem?_eq_some.mp hi).1
    have hndp' : parts.Nodup := (List.nodup_cons.mp hndp).2
    cases hcase : lastIdx names person with
    | some j =>
      have hj : names[j]? = some person := lastIdx_getElem names person j hcase
      have hstep : addShares names share ow (person :: parts) =
          addShares names share (ow.set j (ow[j]?.getD 0 + share)) parts := by
        rw [addShares_cons, hcase]
      have hlen' : (ow.set j (ow[j]?.getD 0 + share)).length = names.length := by
        rw [List.length_set]
        exact hlen
      rw [hstep, ih _ i nm hndp' hlen' hi]
      by_cases he : nm = person
      · subst he
        have hij : i = j := List.getElem?_inj hilt hnd (hi.trans hj.symm)
        subst hij
        have hiow : i < ow.length := by omega
        have hnotin : nm ∉ parts := by
          have := (List.nodup_cons.mp hndp).1
          exact this
        rw [List.getElem?_set_self hiow, if_pos (List.mem_cons_self _ _), if_neg hnotin]
        simp
      · have hij : i ≠ j := by
          intro hc
          rw [hc] at hi
          exact he (Option.some_inj.mp (hi.symm.trans hj))
        rw [List.getElem?_set_ne (fun hc => hij hc.symm)]
        simp [List.mem_cons, he]
    | none =>
      have hperson : person ∉ names := (lastIdx_eq_none_iff names person).mp hcase
      have hstep : addShares names share ow (person :: parts) =
          addShares names share ow parts := by
        rw [addShares_cons, hcase]
      rw [hstep, ih ow i nm hndp' hlen hi]
      have hnm_mem : nm ∈ names := List.getElem?_mem hi
      have he : nm ≠ person := fun h => hperson (h ▸ hnm_mem)
      simp [List.mem_cons, he]

lemma calc_with_itemized_eq (items : List Item) (paid : List ℚ) (names : List String) :
    calc_with_itemized items paid names =
      ((itemFold items names).1, (itemFold items names).2.map round2,
        derive paid ((itemFold items names).2.map round2)) := rfl

lemma itemFold_single (it : Item) (names : List String)
    (hamt : 0 < it.amount) (hne : it.participants ≠ []) :
    itemFold [it] names =
      (it.amount, addShares names (it.amount / it.participants.length)
        (List.replicate names.length 0) it.participants) := by
  rw [itemFold]
  simp only [List.foldl_cons, List.foldl_nil]
  rw [itemStep, if_neg (not_or.mpr ⟨not_le.mpr hamt, hne⟩)]
  simp

/-! ## Claims -/

/-- C1 (counterexample): the claim "applying every transfer drives every
balance to within 0.01 of zero" fails as stated: on the balanced vector
`[0.03, 0.02, 0.018, -0.039, -0.029]` the greedy loop abandons both debtors
with sub-tolerance leftovers and terminates before reaching the third
creditor, who is left at 0.018, beyond the 0.01 tolerance. -/
theorem c1_settlement_within_001_counterexample :
    ([3/100, 2/100, 18/1000, -39/1000, -29/1000] : List ℚ).sum = 0 ∧
    ¬ |appliedBalance [3/100, 2/100, 18/1000, -39/1000, -29/1000]
        (settleTransfers [3/100, 2/100, 18/1000, -39/1000, -29/1000]) 2| ≤ 1/100 := by
  have heval : settleTransfers [3/100, 2/100, 18/1000, -39/1000, -29/1000] =
      [(3, 0, 3/100), (4, 1, 1/50)] := by
    norm_num [settleTransfers, debtorList, creditorList, debtorEntries, creditorEntries,
      List.enum, List.enumFrom, List.filter, sortDesc, insertDesc, settleLoop, min_def]
  refine ⟨by norm_num, ?_⟩
  rw [heval]
  norm_num [appliedBalance, paidBy, recvBy, abs_of_nonneg]

/-- C1 (amended): for every balances vector summing to zero, applying every
transfer of the settlement produced by `settle` — crediting each payment
against the payer's debt and consuming the payee's credit — drives every
participant's balance to within `0.01 × participantCount` of zero (not within
a flat 0.01). -/
theorem c1_settlement_within_tolerance (balances : List ℚ)
    (hsum : balances.sum = 0) (k : ℕ) (hk : k < balances.length) :
    |appliedBalance balances (settleTransfers balances) k| ≤ (balances.length : ℚ) / 100 :=
  settle_residual_bound balances hsum k hk

/-- C1 (witness). -/
theorem c1_settlement_within_tolerance_witness :
    ([2, -2] : List ℚ).sum = 0 ∧ 0 < ([2, -2] : List ℚ).length ∧
    |appliedBalance [2, -2] (settleTransfers [2, -2]) 0| ≤ (([2, -2] : List ℚ).length : ℚ) / 100 :=
  ⟨by norm_num, by norm_num,
    c1_settlement_within_tolerance [2, -2] (by norm_num) 0 (by norm_num)⟩

/-- C2: money conservation.  For equal split: if the paid amounts add up to
the split total (owed computed consistently from the same total), the balance
sum stays within `0.01 × n` of zero.  For itemized split: if every item
participant occurs in the master list and the paid amounts add up to the
computed item grand total, the balance sum stays within `0.01 × n` of zero. -/
theorem c2_conservation :
    (∀ (total : ℚ) (paid : List ℚ) (names : List String),
      names ≠ [] → paid.length = names.length → paid.sum = total →
      ∃ owed bal, calc_with_equal_share total paid names = some (owed, bal) ∧
        |bal.sum| ≤ (names.length : ℚ) * (1/100)) ∧
    (∀ (items : List Item) (paid : List ℚ) (names : List String),
      paid.length = names.length →
      (∀ it ∈ items, ∀ p ∈ it.participants, p ∈ names) →
      paid.sum = (calc_with_itemized items paid names).1 →
      |(calc_with_itemized items paid names).2.2.sum| ≤ (names.length : ℚ) * (1/100)) := by
  constructor
  · intro total paid names hne hlen hsum
    have hn0 : names.length ≠ 0 := fun h => hne (List.length_eq_zero.mp h)
    refine ⟨_, _, calc_with_equal_share_eq total paid names hne, ?_⟩
    have hrep : (List.replicate names.length (total / names.length)).sum = total :=
      sum_replicate_div names.length total hn0
    have hlenr : paid.length = (List.replicate names.length (total / names.length)).length := by
      simp [hlen]
    have hb := abs_sum_derive paid (List.replicate names.length (total / names.length)) hlenr
    rw [hrep, hsum, sub_self, sub_zero] at hb
    have hle : (paid.length : ℚ) / 200 ≤ (names.length : ℚ) * (1/100) := by
      rw [hlen]
      have : (0 : ℚ) ≤ (names.length : ℚ) := by positivity
      linarith
    linarith
  · intro items paid names hlen hall hsum
    obtain ⟨hsumraw, hlenraw⟩ := itemFold_sum items names hall
    rw [calc_with_itemized_eq] at hsum ⊢
    simp only at hsum ⊢
    have hlenowed : ((itemFold items names).2.map round2).length = names.length := by
      rw [List.length_map]
      exact hlenraw
    have hb := abs_sum_derive paid ((itemFold items names).2.map round2)
      (by rw [hlenowed]; exact hlen)
    have hround := abs_sum_map_round2_sub (itemFold items names).2
    rw [hsumraw, hlenraw] at hround
    rw [hsum] at hb
    have h1 : |(derive paid ((itemFold items names).2.map round2)).sum| ≤
        (paid.length : ℚ) / 200 + (names.length : ℚ) / 200 := by
      have := abs_sub_abs_le_abs_sub (0 : ℚ) (0 : ℚ)
      calc |(derive paid ((itemFold items names).2.map round2)).sum|
          = |((derive paid ((itemFold items names).2.map round2)).sum -
              ((itemFold items names).1 - ((itemFold items names).2.map round2).sum)) +
            (((itemFold items names).1 - ((itemFold items names).2.map round2).sum))| := by
            ring_nf
        _ ≤ |(derive paid ((itemFold items names).2.map round2)).sum -
              ((itemFold items names).1 - ((itemFold items names).2.map round2).sum)| +
            |(itemFold items names).1 - ((itemFold items names).2.map round2).sum| := abs_add _ _
        _ ≤ (paid.length : ℚ) / 200 + (names.length : ℚ) / 200 := by
            have h2 : |(itemFold items names).1 - ((itemFold items names).2.map round2).sum| =
                |((itemFold items names).2.map round2).sum - (itemFold items names).1| := abs_sub_comm _ _
            rw [h2]
            exact add_le_add hb hround
    rw [hlen] at h1
    have : (names.length : ℚ) / 200 + (names.length : ℚ) / 200 = (names.length : ℚ) * (1/100) := by
      ring
    linarith

/-- C2 (witness). -/
theorem c2_conservation_witness :
    (∃ owed bal, calc_with_equal_share 300 [300, 0, 0] [r"A", r"B", r"C"] = some (owed, bal) ∧
      |bal.sum| ≤ (([r"A", r"B", r"C"] : List String).length : ℚ) * (1/100)) ∧
    |(calc_with_itemized [⟨r"pizza", 100, [r"A", r"B"]⟩] [60, 40] [r"A", r"B"]).2.2.sum| ≤
      (([r"A", r"B"] : List String).length : ℚ) * (1/100) := by
  constructor
  · exact c2_conservation.1 300 [300, 0, 0] [r"A", r"B", r"C"] (by simp) (by simp) (by norm_num)
  · refine c2_conservation.2 [⟨r"pizza", 100, [r"A", r"B"]⟩] [60, 40] [r"A", r"B"] (by simp)
      ?_ ?_
    · intro it hit p hp
      simp only [List.mem_singleton] at hit
      subst hit
      simp only at hp
      rcases List.mem_cons.mp hp with rfl | hp'
      · simp
      · rcases List.mem_cons.mp hp' with rfl | hp''
        · simp
        · cases hp''
    · rw [calc_with_itemized_eq]
      simp only
      rw [itemFold_single ⟨r"pizza", 100, [r"A", r"B"]⟩ [r"A", r"B"] (by norm_num) (by simp)]
      norm_num

/-- C3 (counterexample): the claim "the number of transfers is at most
(number of nonzero balances) − 1 for every balances vector" fails on the
all-zero vector `[0]`: zero transfers are emitted but the claimed bound is
−1. -/
theorem c3_transfer_bound_counterexample :
    ¬ (((settleTransfers [0]).length : ℤ) ≤ (nonzeroCount [0] : ℤ) - 1) := by
  have heval : settleTransfers [0] = [] := by
    norm_num [settleTransfers, debtorList, creditorList, debtorEntries, creditorEntries,
      List.enum, List.enumFrom, List.filter, sortDesc, insertDesc, settleLoop]
  have hcount : nonzeroCount [0] = 0 := by
    rw [nonzeroCount_eq]
    norm_num [debtorEntries, creditorEntries, List.enum, List.enumFrom, List.filter]
  rw [heval, hcount]
  norm_num

/-- C3 (amended): whenever at least one balance is nonzero, the number of
transfers emitted by `settle` is at most `(number of nonzero balances) − 1`. -/
theorem c3_transfer_bound (balances : List ℚ) (hnz : 1 ≤ nonzeroCount balances) :
    ((settleTransfers balances).length : ℤ) ≤ (nonzeroCount balances : ℤ) - 1 := by
  have hd : (debtorList balances).length = (debtorEntries balances).length :=
    (sortDesc_perm _).length_eq
  have hc : (creditorList balances).length = (creditorEntries balances).length :=
    (sortDesc_perm _).length_eq
  rw [nonzeroCount_eq] at hnz ⊢
  by_cases hdl : debtorList balances = []
  · have : settleTransfers balances = [] := by
      rw [settleTransfers, hdl, settleLoop_nil_left]
    rw [this]
    simp only [List.length_nil]
    omega
  · by_cases hcl : creditorList balances = []
    · have : settleTransfers balances = [] := by
        rw [settleTransfers, hcl, settleLoop_nil_right]
      rw [this]
      simp only [List.length_nil]
      omega
    · have hle := settleLoop_length_le (debtorList balances) (creditorList balances) hdl hcl
      rw [hd, hc] at hle
      have : (settleTransfers balances).length + 1 ≤
          (debtorEntries balances).length + (creditorEntries balances).length := hle
      omega

/-- C3 (witness). -/
theorem c3_transfer_bound_witness :
    1 ≤ nonzeroCount [2, -2] ∧
    ((settleTransfers [2, -2]).length : ℤ) ≤ (nonzeroCount [2, -2] : ℤ) - 1 := by
  have h1 : 1 ≤ nonzeroCount [2, -2] := by
    rw [nonzeroCount_eq]
    norm_num [debtorEntries, creditorEntries, List.enum, List.enumFrom, List.filter]
  exact ⟨h1, c3_transfer_bound [2, -2] h1⟩

/-- C4: before matching, `settle` sorts creditors and debtors descending by
stored magnitude with ties broken by original input order: each sorted list is
a permutation of the corresponding filtered `enumerate` entries, is pairwise
ordered by `keyRel` (strictly larger amount first, equal amounts by ascending
original index — exactly stable descending order), and this characterisation
determines the lists uniquely, making the emitted transfer list (computed by
walking the two sorted lists) deterministic also on tied amounts. -/
theorem c4_sorted_before_matching (balances : List ℚ) :
    settleTransfers balances = settleLoop (debtorList balances) (creditorList balances) ∧
    List.Perm (creditorList balances) (creditorEntries balances) ∧
    List.Pairwise keyRel (creditorList balances) ∧
    List.Perm (debtorList balances) (debtorEntries balances) ∧
    List.Pairwise keyRel (debtorList balances) ∧
    (∀ l, List.Perm l (creditorEntries balances) → List.Pairwise keyRel l →
      l = creditorList balances) ∧
    (∀ l, List.Perm l (debtorEntries balances) → List.Pairwise keyRel l →
      l = debtorList balances) := by
  refine ⟨rfl, sortDesc_perm _, pairwise_sortDesc (creditorEntries_pairwise_fst balances),
    sortDesc_perm _, pairwise_sortDesc (debtorEntries_pairwise_fst balances), ?_, ?_⟩
  · intro l hp hpw
    exact eq_of_perm_of_pairwise_keyRel
      (hp.trans (sortDesc_perm (creditorEntries balances)).symm) hpw
      (pairwise_sortDesc (creditorEntries_pairwise_fst balances))
  · intro l hp hpw
    exact eq_of_perm_of_pairwise_keyRel
      (hp.trans (sortDesc_perm (debtorEntries balances)).symm) hpw
      (pairwise_sortDesc (debtorEntries_pairwise_fst balances))

/-- C4 (witness): on the tied creditors of `[1, 1, -2]`, the list keeping
input order is the unique `keyRel`-sorted arrangement, hence the creditor
list. -/
theorem c4_sorted_before_matching_witness :
    List.Perm [((0 : ℕ), (1 : ℚ)), (1, 1)] (creditorEntries [1, 1, -2]) ∧
    List.Pairwise keyRel [((0 : ℕ), (1 : ℚ)), (1, 1)] ∧
    [((0 : ℕ), (1 : ℚ)), (1, 1)] = creditorList [1, 1, -2] := by
  have he : creditorEntries [1, 1, -2] = [(0, 1), (1, 1)] := by
    norm_num [creditorEntries, List.enum, List.enumFrom, List.filter]
  have hperm : List.Perm [((0 : ℕ), (1 : ℚ)), (1, 1)] (creditorEntries [1, 1, -2]) := by
    rw [he]
  have hpw : List.Pairwise keyRel [((0 : ℕ), (1 : ℚ)), (1, 1)] := by
    refine List.Pairwise.cons ?_ ?_
    · intro z hz
      rcases List.mem_singleton.mp hz with rfl
      exact Or.inr ⟨rfl, by norm_num⟩
    · simp
  exact ⟨hperm, hpw, (c4_sorted_before_matching [1, 1, -2]).2.2.2.2.2.1 _ hperm hpw⟩

/-- C5 (counterexample): the two front-ends do NOT produce the same ordered
transfer list on identical inputs.  With names A,B,C, paid `[2,1,6]` and total
9 split equally, both compute balances `[-1,-2,3]`, but the web app (which
sorts debtors descending) emits B's payment first while the desktop app
(unsorted, input order) emits A's payment first. -/
theorem c5_same_transfers_counterexample :
    calc_with_equal_share 9 [2, 1, 6] [r"A", r"B", r"C"] =
      some (List.replicate ([r"A", r"B", r"C"] : List String).length
          ((9 : ℚ) / (([r"A", r"B", r"C"] : List String).length : ℚ)),
        calculate_split_balances 3 9 [2, 1, 6]) ∧
    calculate_split_balances 3 9 [2, 1, 6] = [-1, -2, 3] ∧
    settleTransfers [-1, -2, 3] ≠ mainSettle [-1, -2, 3] := by
  have hbal : calculate_split_balances 3 9 [2, 1, 6] = [-1, -2, 3] := by
    norm_num [calculate_split_balances, round2, bround, -Int.self_sub_floor]
  refine ⟨?_, hbal, ?_⟩
  · rw [calc_with_equal_share_eq 9 [2, 1, 6] [r"A", r"B", r"C"] (by simp),
      derive_replicate [2, 1, 6] _ _ (by simp)]
    rfl
  · have h1 : settleTransfers [-1, -2, 3] = [(1, 2, 2), (0, 2, 1)] := by
      norm_num [settleTransfers, debtorList, creditorList, debtorEntries, creditorEntries,
        List.enum, List.enumFrom, List.filter, sortDesc, insertDesc, settleLoop, min_def]
    have h2 : mainSettle [-1, -2, 3] = [(0, 2, 1), (1, 2, 2)] := by
      norm_num [mainSettle, debtorEntries, creditorEntries,
        List.enum, List.enumFrom, List.filter, mainSettleLoop, min_def]
    rw [h1, h2]
    simp

/-- C5 (amended): the two front-ends share the balance computation: on every
identical equal-split input (aligned names and paid lists), the web app's
`calc_with_equal_share` returns exactly the desktop app's balance vector,
while their settlement loops differ (sorted with 0.01 advancement tolerance
versus unsorted with exact-zero advancement). -/
theorem c5_shared_balance_computation (total : ℚ) (paid : List ℚ) (names : List String)
    (hne : names ≠ []) (hlen : paid.length = names.length) :
    calc_with_equal_share total paid names =
      some (List.replicate names.length (total / names.length),
        calculate_split_balances names.length total paid) := by
  rw [calc_with_equal_share_eq total paid names hne,
    derive_replicate paid (total / names.length) names.length (le_of_eq hlen)]
  rfl

/-- C5 (witness). -/
theorem c5_shared_balance_computation_witness :
    ([r"A"] : List String) ≠ [] ∧ ([5] : List ℚ).length = ([r"A"] : List String).length ∧
    calc_with_equal_share 5 [5] [r"A"] =
      some (List.replicate ([r"A"] : List String).length
          ((5 : ℚ) / (([r"A"] : List String).length : ℚ)),
        calculate_split_balances ([r"A"] : List String).length 5 [5]) :=
  ⟨by simp, by simp, c5_shared_balance_computation 5 [5] [r"A"] (by simp) (by simp)⟩

/-- C6 (counterexample): `calc_with_equal_share` does NOT fail on a negative
total: at total = −5 with two participants it returns normally. -/
theorem c6_negative_total_counterexample :
    (-5 : ℚ) < 0 ∧ calc_with_equal_share (-5) [0, 0] [r"A", r"B"] ≠ none := by
  refine ⟨by norm_num, ?_⟩
  rw [calc_with_equal_share_eq (-5) [0, 0] [r"A", r"B"] (by simp)]
  exact Option.some_ne_none _

/-- C6 (amended): `calc_with_equal_share` performs no input validation: it
fails (Python: `ZeroDivisionError`, modelled `none`) exactly when the
participant list is empty, and for every nonempty participant list — any
total, negative ones included — it returns normally with every owed entry
equal to `total / participantCount`. -/
theorem c6_equal_share_no_validation (total : ℚ) (paid : List ℚ) (names : List String) :
    (names.length = 0 → calc_with_equal_share total paid names = none) ∧
    (names ≠ [] → calc_with_equal_share total paid names =
      some (List.replicate names.length (total / names.length),
        derive paid (List.replicate names.length (total / names.length)))) := by
  constructor
  · intro h
    rw [calc_with_equal_share, if_pos h]
  · intro h
    exact calc_with_equal_share_eq total paid names h

/-- C6 (witness). -/
theorem c6_equal_share_no_validation_witness :
    calc_with_equal_share 7 [1] ([] : List String) = none ∧
    calc_with_equal_share (-5) [0, 0] [r"A", r"B"] =
      some (List.replicate ([r"A", r"B"] : List String).length
          ((-5 : ℚ) / (([r"A", r"B"] : List String).length : ℚ)),
        derive [0, 0] (List.replicate ([r"A", r"B"] : List String).length
          ((-5 : ℚ) / (([r"A", r"B"] : List String).length : ℚ)))) :=
  ⟨(c6_equal_share_no_validation 7 [1] []).1 rfl,
    (c6_equal_share_no_validation (-5) [0, 0] [r"A", r"B"]).2 (by simp)⟩

/-- C7 (counterexample): the Balance Deriver does NOT fail on mismatched
lengths: `zip` silently truncates, so on paid `[1,2]` against owed `[1]` it
returns the one-element vector `[0]` instead of an error. -/
theorem c7_length_mismatch_counterexample :
    ([1, 2] : List ℚ).length ≠ ([1] : List ℚ).length ∧ derive [1, 2] [1] = [0] := by
  refine ⟨by simp, ?_⟩
  norm_num [derive, round2, bround, -Int.self_sub_floor]

/-- C7 (amended): `derive` never fails: its output has length
`min |paid| |owed|` (silent truncation on mismatch), and wherever both inputs
are defined, `balances[i] = round(paid[i] - owed[i], 2)`. -/
theorem c7_derive_truncates (paid owed : List ℚ) :
    (derive paid owed).length = min paid.length owed.length ∧
    ∀ (i : ℕ) (h1 : i < paid.length) (h2 : i < owed.length),
      (derive paid owed)[i]? = some (round2 (paid[i] - owed[i])) :=
  ⟨length_derive paid owed, fun i h1 h2 => derive_getElem paid owed i h1 h2⟩

/-- C7 (witness). -/
theorem c7_derive_truncates_witness :
    (derive [5, 7] [2]).length = min ([5, 7] : List ℚ).length ([2] : List ℚ).length ∧
    (derive [5, 7] [2])[0]? = some (round2 (([5, 7] : List ℚ)[0] - ([2] : List ℚ)[0])) :=
  ⟨(c7_derive_truncates [5, 7] [2]).1,
    (c7_derive_truncates [5, 7] [2]).2 0 (by norm_num) (by norm_num)⟩

/-- C8: in the itemized calculation, a participant listed on an item but
absent from the master list is silently dropped: the item's full amount still
enters the returned total, each master participant named by the item is owed
one share (whose denominator still counts the unknown name), no error occurs
(the function is total), and the raw owed accumulator sums to strictly less
than the item total — the unknown name's share lands nowhere. -/
theorem c8_unknown_item_participant_dropped (it : Item) (paid : List ℚ)
    (names : List String) (q : String)
    (hq : q ∈ it.participants) (hqn : q ∉ names) (hamt : 0 < it.amount)
    (hpnd : it.participants.Nodup) (hnd : names.Nodup) :
    (calc_with_itemized [it] paid names).1 = it.amount ∧
    (∀ (i : ℕ) (nm : String), names[i]? = some nm →
      ((calc_with_itemized [it] paid names).2.1)[i]? =
        some (round2 (if nm ∈ it.participants
          then it.amount / it.participants.length else 0))) ∧
    (itemFold [it] names).2.sum =
      it.amount / it.participants.length *
        (((it.participants.filter fun p => decide (p ∈ names)).length : ℕ) : ℚ) ∧
    (itemFold [it] names).2.sum < it.amount := by
  have hne : it.participants ≠ [] := List.ne_nil_of_mem hq
  have hfold := itemFold_single it names hamt hne
  have hlenp : 0 < it.participants.length := List.length_pos.mpr hne
  have hlenq : (0 : ℚ) < ((it.participants.length : ℕ) : ℚ) := by
    exact_mod_cast hlenp
  have hshare : 0 < it.amount / ((it.participants.length : ℕ) : ℚ) := div_pos hamt hlenq
  refine ⟨?_, ?_, ?_, ?_⟩
  · rw [calc_with_itemized_eq]
    simp only
    rw [hfold]
  · intro i nm hi
    rw [calc_with_itemized_eq]
    simp only
    rw [hfold]
    simp only
    rw [List.getElem?_map]
    have hlenrep : (List.replicate names.length (0 : ℚ)).length = names.length := by
      simp
    rw [addShares_getElem names (it.amount / it.participants.length) hnd it.participants
      (List.replicate names.length 0) i nm hpnd hlenrep hi]
    have hilt : i < names.length := (List.getElem?_eq_some.mp hi).1
    have hrep : (List.replicate names.length (0 : ℚ))[i]? = some 0 := by
      rw [List.getElem?_eq_getElem (by simpa using hilt)]
      simp
    rw [hrep]
    simp
  · rw [hfold]
    simp only
    rw [addShares_sum names _ it.participants (List.replicate names.length 0) (by simp)]
    simp
  · rw [hfold]
    simp only
    rw [addShares_sum names _ it.participants (List.replicate names.length 0) (by simp)]
    have hcount : (it.participants.filter fun p => decide (p ∈ names)).length <
        it.participants.length := by
      rw [List.length_filter_lt_length_iff_exists]
      exact ⟨q, hq, by simp [hqn]⟩
    have hc : (((it.participants.filter fun p => decide (p ∈ names)).length : ℕ) : ℚ) <
        ((it.participants.length : ℕ) : ℚ) := by
      exact_mod_cast hcount
    have h1 : it.amount / it.participants.length *
        (((it.participants.filter fun p => decide (p ∈ names)).length : ℕ) : ℚ) <
        it.amount / it.participants.length * ((it.participants.length : ℕ) : ℚ) :=
      mul_lt_mul_of_pos_left hc hshare
    have h2 : it.amount / ((it.participants.length : ℕ) : ℚ) *
        ((it.participants.length : ℕ) : ℚ) = it.amount := by
      field_simp
    have hz : (List.replicate names.length (0 : ℚ)).sum = 0 := by
      simp
    rw [hz, zero_add]
    linarith

/-- C8 (witness). -/
theorem c8_unknown_item_participant_dropped_witness :
    (calc_with_itemized [⟨r"x", 10, [r"A", r"Q"]⟩] [0, 0] [r"A", r"B"]).1 =
      (⟨r"x", 10, [r"A", r"Q"]⟩ : Item).amount ∧
    ((calc_with_itemized [⟨r"x", 10, [r"A", r"Q"]⟩] [0, 0] [r"A", r"B"]).2.1)[(0 : ℕ)]? =
      some (round2 (if r"A" ∈ (⟨r"x", 10, [r"A", r"Q"]⟩ : Item).participants
        then (⟨r"x", 10, [r"A", r"Q"]⟩ : Item).amount /
          (⟨r"x", 10, [r"A", r"Q"]⟩ : Item).participants.length else 0)) ∧
    (itemFold [⟨r"x", 10, [r"A", r"Q"]⟩] [r"A", r"B"]).2.sum <
      (⟨r"x", 10, [r"A", r"Q"]⟩ : Item).amount := by
  obtain ⟨h1, h2, h3, h4⟩ := c8_unknown_item_participant_dropped
    ⟨r"x", 10, [r"A", r"Q"]⟩ [0, 0] [r"A", r"B"] r"Q"
    (by simp) (by simp) (by norm_num) (by simp) (by simp)
  exact ⟨h1, h2 0 r"A" rfl, h4⟩

/-- C9: the greedy settlement loop terminates for every finite balances
vector: run with one unit of fuel per iteration, it reaches a state with an
exhausted cursor list (returning `some`) within `#debtors + #creditors`
iterations, computing exactly the total-function result, and accordingly the
number of emitted transfers (one per iteration) never exceeds
`#debtors + #creditors`. -/
theorem c9_loop_terminates (balances : List ℚ) :
    settleLoopFuel ((debtorList balances).length + (creditorList balances).length)
      (debtorList balances) (creditorList balances) = some (settleTransfers balances) ∧
    (settleTransfers balances).length ≤
      (debtorList balances).length + (creditorList balances).length := by
  constructor
  · exact settleLoopFuel_eq_some _ _ _ (le_refl _)
  · by_cases hdl : debtorList balances = []
    · rw [settleTransfers, hdl, settleLoop_nil_left]
      simp
    · by_cases hcl : creditorList balances = []
      · rw [settleTransfers, hcl, settleLoop_nil_right]
        simp
      · have h := settleLoop_length_le _ _ hdl hcl
        have h2 : (settleTransfers balances).length =
            (settleLoop (debtorList balances) (creditorList balances)).length := rfl
        omega

/-- C10: every transfer emitted by `settle` has a payer whose input balance is
strictly negative, a payee whose input balance is strictly positive, and a
strictly positive amount; consequently no index appears as both a payer and a
payee within one settlement, and zero-balance participants appear in no
transfer. -/
theorem c10_transfer_signs (balances : List ℚ) :
    (∀ t ∈ settleTransfers balances, 0 < t.2.2 ∧
      (∃ b, balances[t.1]? = some b ∧ b < 0) ∧
      (∃ b, balances[t.2.1]? = some b ∧ 0 < b)) ∧
    (∀ t ∈ settleTransfers balances, ∀ u ∈ settleTransfers balances, t.1 ≠ u.2.1) ∧
    (∀ k, balances[k]? = some 0 →
      ∀ t ∈ settleTransfers balances, t.1 ≠ k ∧ t.2.1 ≠ k) := by
  have hposc : ∀ x ∈ creditorList balances, 0 < x.2 := by
    rintro ⟨a, b⟩ hx
    exact (mem_creditorList.mp hx).2
  have hposd : ∀ x ∈ debtorList balances, 0 < x.2 := by
    rintro ⟨a, b⟩ hx
    exact (mem_debtorList.mp hx).2
  have hmain : ∀ t ∈ settleTransfers balances, 0 < t.2.2 ∧
      (∃ b, balances[t.1]? = some b ∧ b < 0) ∧
      (∃ b, balances[t.2.1]? = some b ∧ 0 < b) := by
    intro t ht
    have hpos := settleLoop_pos _ _ hposd hposc t ht
    obtain ⟨hd, hc⟩ := settleLoop_fst_mem _ _ t ht
    obtain ⟨x, hx, hxk⟩ := List.mem_map.mp hd
    have hx' : (t.1, x.2) ∈ debtorList balances := by
      rw [← hxk]
      exact hx
    obtain ⟨hget, hpos2⟩ := mem_debtorList.mp hx'
    obtain ⟨y, hy, hyk⟩ := List.mem_map.mp hc
    have hy' : (t.2.1, y.2) ∈ creditorList balances := by
      rw [← hyk]
      exact hy
    obtain ⟨hget2, hpos3⟩ := mem_creditorList.mp hy'
    exact ⟨hpos, ⟨-x.2, hget, by linarith⟩, ⟨y.2, hget2, hpos3⟩⟩
  refine ⟨hmain, ?_, ?_⟩
  · intro t ht u hu h
    obtain ⟨_, ⟨b1, hb1, hb1n⟩, _⟩ := hmain t ht
    obtain ⟨_, _, b2, hb2, hb2p⟩ := hmain u hu
    rw [h] at hb1
    have : b1 = b2 := Option.some_inj.mp (hb1.symm.trans hb2)
    linarith
  · intro k hk t ht
    obtain ⟨_, ⟨b1, hb1, hb1n⟩, b2, hb2, hb2p⟩ := hmain t ht
    constructor
    · intro h
      rw [h] at hb1
      have : (0 : ℚ) = b1 := Option.some_inj.mp (hk.symm.trans hb1)
      linarith
    · intro h
      rw [h] at hb2
      have : (0 : ℚ) = b2 := Option.some_inj.mp (hk.symm.trans hb2)
      linarith

/-- C10 (witness). -/
theorem c10_transfer_signs_witness :
    ((2, 0, (1 : ℚ)) ∈ settleTransfers [1, 0, -1]) ∧
    0 < ((2, 0, (1 : ℚ))).2.2 ∧
    (∃ b, ([1, 0, -1] : List ℚ)[(2 : ℕ)]? = some b ∧ b < 0) ∧
    (∃ b, ([1, 0, -1] : List ℚ)[(0 : ℕ)]? = some b ∧ 0 < b) ∧
    ((2, 0, (1 : ℚ)).1 ≠ 1 ∧ (2, 0, (1 : ℚ)).2.1 ≠ 1) := by
  have heval : settleTransfers [1, 0, -1] = [(2, 0, 1)] := by
    norm_num [settleTransfers, debtorList, creditorList, debtorEntries, creditorEntries,
      List.enum, List.enumFrom, List.filter, sortDesc, insertDesc, settleLoop, min_def]
  have hmem : (2, 0, (1 : ℚ)) ∈ settleTransfers [1, 0, -1] := by
    rw [heval]
    exact List.mem_singleton.mpr rfl
  obtain ⟨h1, h2, h3⟩ := (c10_transfer_signs [1, 0, -1]).1 _ hmem
  have hz := (c10_transfer_signs [1, 0, -1]).2.2 1 rfl _ hmem
  exact ⟨hmem, h1, h2, h3, hz⟩

end Spliter
